import Mathlib

/-!
Shallow embedding of the BunkerWeb reports indexer (src/bw_indexer.py) and of
the search API (src/bw_api.py).  The Redis structures the two scripts touch
are modelled as explicit association lists collected in a single `Store`
value, and the Redis commands the code issues (SET NX EX, SET, EXPIRE, ZADD,
ZRANGEBYSCORE, SADD, SMEMBERS) are modelled as pure functions on `Store`.
Timestamps (Python floats) are modelled as rationals.  All structures belong
to the single key namespace the scripts operate in; the key namespace
parameter only renames keys and is therefore not modelled.  Key expiration
is recorded as metadata (the TTL attached to a key when it was last given
one); the passage of wall-clock time is not modelled.
-/

/-- One parsed event record, as the indexer obtains it from a JSON entry of
the source LIST.  A field set to `none` models an absent JSON field.  For
the date field, `none` also covers a present value that the float()
conversion rejects (the two cases are treated identically by the code).
String attribute fields hold the str() image of the JSON value; the status
field is kept as an integer because both scripts index and filter it through
its decimal string form. -/
structure RawRecord where
  id : Option String := none
  date : Option ℚ := none
  ip : Option String := none
  server_name : Option String := none
  security_mode : Option String := none
  status : Option Int := none
  reason : Option String := none
  country : Option String := none
  method : Option String := none
  url : Option String := none
  user_agent : Option String := none
  deriving DecidableEq

/-- One raw element of the source LIST: either bytes rejected by json.loads
(counted as bad_json by the indexer) or a parsed record. -/
inductive Entry where
  | malformed : Entry
  | record : RawRecord → Entry
  deriving DecidableEq

/-- Lookup in an association list (the model of one family of Redis keys). -/
def alookup {κ β : Type} [DecidableEq κ] (k : κ) : List (κ × β) → Option β
  | [] => none
  | p :: l => if p.1 = k then some p.2 else alookup k l

/-- Insert or overwrite one key of an association list; a fresh key is
appended, so the list keeps first-write order. -/
def aset {κ β : Type} [DecidableEq κ] (k : κ) (v : β) : List (κ × β) → List (κ × β)
  | [] => [(k, v)]
  | p :: l => if p.1 = k then (k, v) :: l else p :: aset k v l

/-- The Redis state touched by the two scripts, for one index namespace:
seen models the seen:<id> dedupe markers (value is the TTL given at
creation), reqs models the req:<id> forward JSON entries (record plus
current TTL), zset models the requests:by_date ZSET as a list of
(member, score) pairs kept in ascending score order with ties in insertion
order, zttl is the TTL of the ZSET key as a whole, and sets models the
<kind>:<value> attribute SETs (members in insertion order, plus current
TTL of the SET key). -/
structure Store where
  seen : List (String × Option Nat) := []
  reqs : List (String × (RawRecord × Option Nat)) := []
  zset : List (String × ℚ) := []
  zttl : Option Nat := none
  sets : List ((String × String) × (List String × Option Nat)) := []
  deriving DecidableEq

/-- The empty Redis state. -/
def Store.empty : Store := {}

/-- SET key "1" NX (with optional EX ttl) on a seen:<id> marker: set only if
absent, and report whether the key was newly created.  When the key exists
the command is a complete no-op (it refreshes nothing). -/
def setSeenNX (st : Store) (i : String) (ttl : Option Nat) : Store × Bool :=
  match alookup i st.seen with
  | some _ => (st, false)
  | none => ({ st with seen := aset i ttl st.seen }, true)

/-- SET req:<id> raw: store the forward record.  A plain SET discards any
TTL the key carried before. -/
def setReq (st : Store) (i : String) (r : RawRecord) : Store :=
  { st with reqs := aset i (r, none) st.reqs }

/-- EXPIRE req:<id> t: attach a TTL to an existing forward entry (no-op on a
missing key). -/
def expireReq (st : Store) (i : String) (t : Nat) : Store :=
  { st with reqs := st.reqs.map (fun p => if p.1 = i then (p.1, (p.2.1, some t)) else p) }

/-- Insert a member into the score-ordered ZSET list: before the first entry
with a strictly larger score, hence after any entry with an equal score
(insertion order on ties; no claim depends on the order within one score). -/
def zinsert (m : String) (sc : ℚ) : List (String × ℚ) → List (String × ℚ)
  | [] => [(m, sc)]
  | p :: l => if sc < p.2 then (m, sc) :: p :: l else p :: zinsert m sc l

/-- ZADD requests:by_date (score = member timestamp): any previous entry of
the member is replaced, then the member is inserted at its score position. -/
def zadd (st : Store) (m : String) (sc : ℚ) : Store :=
  { st with zset := zinsert m sc (st.zset.filter (fun p => decide (p.1 ≠ m))) }

/-- SADD <kind>:<value> id: create the SET if needed (a fresh key has no
TTL), and append the member if it is not already present. -/
def sadd (st : Store) (kv : String × String) (i : String) : Store :=
  match alookup kv st.sets with
  | none => { st with sets := aset kv ([i], none) st.sets }
  | some ms =>
    { st with sets := aset kv (if i ∈ ms.1 then ms.1 else ms.1 ++ [i], ms.2) st.sets }

/-- EXPIRE <kind>:<value> t: refresh the TTL of an attribute SET key (no-op
on a missing key). -/
def expireSet (st : Store) (kv : String × String) (t : Nat) : Store :=
  { st with sets := st.sets.map (fun p => if p.1 = kv then (p.1, (p.2.1, some t)) else p) }

/-- SMEMBERS <kind>:<value>: the member list of an attribute SET (empty for
a missing key). -/
def smembersL (st : Store) (kv : String × String) : List String :=
  match alookup kv st.sets with
  | none => []
  | some ms => ms.1

/-- ZRANGEBYSCORE requests:by_date s e: all entries whose score lies in the
inclusive range, in the stored (ascending score) order. -/
def zrangebyscore (st : Store) (s e : ℚ) : List (String × ℚ) :=
  st.zset.filter (fun p => decide (s ≤ p.2) && decide (p.2 ≤ e))

/-- The members of the time index. -/
def zmem (st : Store) : List String := st.zset.map (fun p => p.1)

/-! ## The indexer (bw_indexer.py main) -/

/-- The final counters printed by the indexer run. -/
structure Report where
  new_count : Nat := 0
  bad_json : Nat := 0
  no_id : Nat := 0
  no_date : Nat := 0
  deriving DecidableEq

/-- The TTL in seconds derived from the ttl_days argument: ttl_days * 86400
when ttl_days is truthy and positive, otherwise no expiration. -/
def ttlOf (d : Int) : Option Nat := if 0 < d then some ((d * 86400).toNat) else none

/-- The attribute guard of the indexer loop (shared by the API filter
builder): skip an absent value and skip the empty string (the code tests
v is None or v equals the empty string), otherwise emit the (kind, value)
pair. -/
def pickAttr (kind : String) (v : Option String) : List (String × String) :=
  match v with
  | none => []
  | some s => if s = "" then [] else [(kind, s)]

/-- The (kind, value) pairs the indexer indexes for one record, in the order
of the static kind/field table of the code: ip, server, mode, status,
reason, country, method.  The status value is indexed through str(v). -/
def RawRecord.attrPairs (r : RawRecord) : List (String × String) :=
  pickAttr "ip" r.ip ++ pickAttr "server" r.server_name ++
    pickAttr "mode" r.security_mode ++
    (match r.status with | none => [] | some n => [("status", toString n)]) ++
    pickAttr "reason" r.reason ++ pickAttr "country" r.country ++
    pickAttr "method" r.method

/-- Commit of one newly-marked record with numeric timestamp ts: SET the
forward JSON (plus EXPIRE when a TTL is configured), ZADD into the time
index (the ZSET key itself is never given a TTL), and for every attribute
pair SADD the id and refresh the TTL of that SET key. -/
def commitRecord (ttl : Option Nat) (st : Store) (i : String) (r : RawRecord) (ts : ℚ) : Store :=
  r.attrPairs.foldl
    (fun s kv =>
      match ttl with
      | some t => expireSet (sadd s kv i) kv t
      | none => sadd s kv i)
    (zadd
      (match ttl with
        | some t => expireReq (setReq st i r) i t
        | none => setReq st i r)
      i ts)

/-- First pass over one chunk: count unparseable entries (bad_json) and
entries without a truthy id (no_id); for every remaining record issue
SET NX on its seen:<id> marker and keep the (id, record, is_new) triple.
The SET NX commands run inside a pipeline executed at the end of the pass;
since nothing else in the pass touches the markers, issuing them inline is
equivalent. -/
def pass1 (ttl : Option Nat) : List Entry → Store → Report → Store × Report × List (String × RawRecord × Bool)
  | [], st, rep => (st, rep, [])
  | Entry.malformed :: rest, st, rep =>
    pass1 ttl rest st { rep with bad_json := rep.bad_json + 1 }
  | Entry.record r :: rest, st, rep =>
    match r.id with
    | none => pass1 ttl rest st { rep with no_id := rep.no_id + 1 }
    | some i =>
      if i = "" then pass1 ttl rest st { rep with no_id := rep.no_id + 1 }
      else
        let sb := setSeenNX st i ttl
        let srl := pass1 ttl rest sb.1 rep
        (srl.1, srl.2.1, (i, r, sb.2) :: srl.2.2)

/-- Second pass over one chunk: skip records whose marker already existed;
for newly-marked records without a numeric date count no_date and commit
nothing (the marker stays, a poison skip); otherwise commit and count
new_count.  The guard of the code that skips executing an empty pipeline
(if new_count) never suppresses queued commands, because any queued command
implies new_count is positive by the end of the chunk. -/
def pass2 (ttl : Option Nat) : List (String × RawRecord × Bool) → Store → Report → Store × Report
  | [], st, rep => (st, rep)
  | (i, r, isNew) :: rest, st, rep =>
    if isNew then
      match r.date with
      | none => pass2 ttl rest st { rep with no_date := rep.no_date + 1 }
      | some ts =>
        pass2 ttl rest (commitRecord ttl st i r ts) { rep with new_count := rep.new_count + 1 }
    else pass2 ttl rest st rep

/-- One iteration of the chunk loop: pass 1 then pass 2 over one chunk. -/
def chunkStep (ttl : Option Nat) (batch : List Entry) (sr : Store × Report) : Store × Report :=
  let a := pass1 ttl batch sr.1 sr.2
  pass2 ttl a.2.2 a.1 a.2.1

/-- The chunk loop of the indexer: LRANGE slices of chunkSize entries are
processed in order until the source is exhausted.  The fuel argument (the
source length at the top call) bounds the recursion; with a positive
chunkSize it never runs out before the source does.  A zero chunkSize is a
Python-level ValueError in the original code and is modelled as processing
nothing. -/
def indexChunks (ttl : Option Nat) (chunkSize : Nat) : Nat → List Entry → Store × Report → Store × Report
  | 0, _, sr => sr
  | _ + 1, [], sr => sr
  | fuel + 1, x :: items, sr =>
    if chunkSize = 0 then sr
    else
      indexChunks ttl chunkSize fuel ((x :: items).drop chunkSize)
        (chunkStep ttl ((x :: items).take chunkSize) sr)

/-- The command-line arguments of one indexer run (the source LIST contents
stand in for the source_key name). -/
structure RunParams where
  source : List Entry
  ttl_days : Int := 60
  chunk : Nat := 500
  deriving DecidableEq

/-- One full run of bw_indexer.py main over a given Redis state. -/
def runIndexer (st : Store) (p : RunParams) : Store × Report :=
  indexChunks (ttlOf p.ttl_days) p.chunk p.source.length p.source (st, {})

/-- The Redis state produced by a sequence of indexer runs starting from an
empty database. -/
def buildStore (runs : List RunParams) : Store :=
  runs.foldl (fun st p => (runIndexer st p).1) Store.empty

/-- A Redis state is built by the indexer when some sequence of runs over an
empty database produces it. -/
def Built (st : Store) : Prop := ∃ runs : List RunParams, st = buildStore runs

/-! ## The search API (bw_api.py) -/

/-- Python substring membership (the in operator) on character lists. -/
def infixChars (needle : List Char) : List Char → Bool
  | [] => needle.isPrefixOf []
  | c :: t => needle.isPrefixOf (c :: t) || infixChars needle t

/-- Python substring test needle in hay. -/
def pyIn (needle hay : String) : Bool := infixChars needle.data hay.data

/-- Python str.lower, modelled per character (ASCII case folding). -/
def lowerChars (s : String) : List Char := s.data.map Char.toLower

/-- Case-insensitive substring test needle.lower() in hay.lower(). -/
def pyInCI (needle hay : String) : Bool := infixChars (lowerChars needle) (lowerChars hay)

/-- The exact-match filter parameters of /reports/search. -/
structure Filters where
  server_name : Option String := none
  ip : Option String := none
  security_mode : Option String := none
  status : Option Int := none
  reason : Option String := none
  country : Option String := none
  method : Option String := none
  deriving DecidableEq

/-- The (kind, value) intersection list derived from the supplied filters,
in the order the handler applies them: ip, server, mode, status, reason,
country, method.  A missing parameter contributes nothing; string
parameters are guarded by Python truthiness (the empty string contributes
nothing); status is compared through str(status) and is applied whenever it
is not None. -/
def Filters.toPairs (f : Filters) : List (String × String) :=
  pickAttr "ip" f.ip ++ pickAttr "server" f.server_name ++
    pickAttr "mode" f.security_mode ++
    (match f.status with | none => [] | some n => [("status", toString n)]) ++
    pickAttr "reason" f.reason ++ pickAttr "country" f.country ++
    pickAttr "method" f.method

/-- Step 1 and 2 of the handler: the ids whose score lies in the inclusive
time window, ascending by score, reversed when order is exactly the string
newest. -/
def timeIdsOf (st : Store) (s e : ℚ) (order : String) : List String :=
  let ids := (zrangebyscore st s e).map (fun p => p.1)
  if order = "newest" then ids.reverse else ids

/-- Step 3 of the handler: intersect the candidate collection with the
attribute SET of every supplied filter, in order.  The Python code keeps
candidates as a set; only membership in it is ever used, so it is modelled
as a list and each intersection as a membership filter. -/
def applyFilters (st : Store) (pairs : List (String × String)) (cands : List String) : List String :=
  pairs.foldl (fun c kv => c.filter (fun i => decide (i ∈ smembersL st kv))) cands

/-- The candidate collection after all supplied filters were intersected. -/
def candidatesOf (st : Store) (s e : ℚ) (order : String) (fl : Filters) : List String :=
  applyFilters st fl.toPairs (timeIdsOf st s e order)

/-- Step 4 of the handler: refilter the time-ordered id list by membership
in the final candidates and truncate to limit. -/
def orderedOf (st : Store) (s e : ℚ) (order : String) (fl : Filters) (limit : Nat) : List String :=
  ((timeIdsOf st s e order).filter
    (fun i => decide (i ∈ candidatesOf st s e order fl))).take limit

/-- The url_contains guard: skipped when the parameter is missing or empty
(Python truthiness), otherwise a case-sensitive substring test against the
url field (an absent field reads as the empty string). -/
def urlOk (uc : Option String) (r : RawRecord) : Bool :=
  match uc with
  | none => true
  | some p => if p = "" then true else pyIn p (r.url.getD "")

/-- The ua_contains guard: as urlOk but case-insensitive against the
user_agent field. -/
def uaOk (ac : Option String) (r : RawRecord) : Bool :=
  match ac with
  | none => true
  | some p => if p = "" then true else pyInCI p (r.user_agent.getD "")

/-- Step 5 of the handler, for one id of the truncated list: GET the forward
record (a missing key is silently skipped) and drop it unless it passes both
substring guards.  The human-date annotation the code then attaches is a
string rendering of the stored date and is not modelled. -/
def fetchRec (st : Store) (uc ac : Option String) (rid : String) : Option RawRecord :=
  match alookup rid st.reqs with
  | none => none
  | some rt => if urlOk uc rt.1 && uaOk ac rt.1 then some rt.1 else none

/-- The final result list of one search. -/
def resultsOf (st : Store) (s e : ℚ) (fl : Filters) (uc ac : Option String) (order : String) (limit : Nat) : List RawRecord :=
  (orderedOf st s e order fl limit).filterMap (fetchRec st uc ac)

/-- Counter(l): value to multiplicity, in first-encounter order. -/
def countsOf (l : List String) : List (String × Nat) :=
  l.foldl
    (fun acc v =>
      match alookup v acc with
      | none => acc ++ [(v, 1)]
      | some n => aset v (n + 1) acc)
    []

/-- Insertion into a count-descending list, after any entry with an equal
count (so that the stable ordering of most_common, first-encountered wins
ties, is preserved). -/
def insertByCountDesc (x : String × Nat) : List (String × Nat) → List (String × Nat)
  | [] => [x]
  | y :: l => if y.2 < x.2 then x :: y :: l else y :: insertByCountDesc x l

/-- Counter(l).most_common(10). -/
def mostCommon10 (l : List String) : List (String × Nat) :=
  ((countsOf l).foldl (fun acc x => insertByCountDesc x acc) []).take 10

/-- One top-10 aggregate over the final result list; a missing or empty
field value is skipped (Python truthiness of x.get(field)). -/
def topVals (results : List RawRecord) (f : RawRecord → Option String) : List (String × Nat) :=
  mostCommon10 (results.filterMap
    (fun r => match f r with | none => none | some v => if v = "" then none else some v))

/-- The JSON document returned by /reports/search. -/
structure SearchResult where
  count : Nat
  top_ips : List (String × Nat)
  top_urls : List (String × Nat)
  top_reasons : List (String × Nat)
  results : List RawRecord
  deriving DecidableEq

/-- The search handler after the time window was resolved: steps 2 to 7 of
the algorithm, producing count, the three aggregates and the result list. -/
def search_reports (st : Store) (s e : ℚ) (fl : Filters) (uc ac : Option String) (order : String) (limit : Nat) : SearchResult :=
  let res := resultsOf st s e fl uc ac order limit
  { count := res.length
    top_ips := topVals res (fun r => r.ip)
    top_urls := topVals res (fun r => r.url)
    top_reasons := topVals res (fun r => r.reason)
    results := res }

/-- A start or end request value.  num n models a string that passes the
numeric test of to_epoch (digits with at most one dot), with value n;
dateStr models any other string, carrying the epoch value dateutil parsing
produces for it (timezone handling included), or none when dateutil raises
ParserError. -/
inductive TimeVal where
  | num : ℚ → TimeVal
  | dateStr : Option ℚ → TimeVal
  deriving DecidableEq

/-- to_epoch of bw_api.py: a numeric value strictly above 10^10 is taken as
milliseconds and divided by 1000, any other numeric value is taken as
seconds; a non-numeric value is handed to dateutil, whose ParserError
escapes the function as an exception (modelled as the error branch).
Python float arithmetic is modelled exactly on rationals. -/
def to_epoch : TimeVal → Except String ℚ
  | TimeVal.num n => Except.ok (if 10000000000 < n then n / 1000 else n)
  | TimeVal.dateStr none => Except.error "ParserError"
  | TimeVal.dateStr (some t) => Except.ok t

/-- The HTTP outcome of a failed request: a 4xx request-validation error
produced by FastAPI before the handler runs, or a 500 produced by the
framework from an exception the handler did not catch. -/
inductive ApiError where
  | clientError : String → ApiError
  | serverError : String → ApiError
  deriving DecidableEq

/-- The full /reports/search endpoint as seen by a caller.  FastAPI rejects
a request missing the required start or end parameter with a 422 client
error before the handler runs; inside the handler, to_epoch is called
without any exception handling, so a ParserError from an unparseable value
propagates and surfaces as a 500 server error. -/
def reports_search (st : Store) (startv endv : Option TimeVal) (fl : Filters) (uc ac : Option String) (order : String) (limit : Nat) : Except ApiError SearchResult :=
  match startv, endv with
  | none, _ => Except.error (ApiError.clientError "field required: start")
  | _, none => Except.error (ApiError.clientError "field required: end")
  | some sv, some ev =>
    match to_epoch sv with
    | Except.error m => Except.error (ApiError.serverError m)
    | Except.ok s =>
      match to_epoch ev with
      | Except.error m => Except.error (ApiError.serverError m)
      | Except.ok e => Except.ok (search_reports st s e fl uc ac order limit)

/-! ## Derived notions used by the statements -/

/-- The id under which an entry is admitted by pass 1: none for unparseable
entries and for entries without a truthy id. -/
def entryId : Entry → Option String
  | Entry.malformed => none
  | Entry.record r =>
    match r.id with
    | none => none
    | some i => if i = "" then none else some i

/-- The admitted ids of a source slice, in order. -/
def admissibleIds (items : List Entry) : List String := items.filterMap entryId

/-- Every key footprint written with retention enabled carries the TTL T:
all dedupe markers, all forward entries and all attribute SET keys hold TTL
T, while the time-index ZSET key holds no TTL at all. -/
def TtlAll (T : Nat) (st : Store) : Prop :=
  (∀ p ∈ st.seen, p.2 = some T) ∧ (∀ p ∈ st.reqs, p.2.2 = some T) ∧
    (∀ p ∈ st.sets, p.2.2 = some T) ∧ st.zttl = none

/-- The claim C1 reads: all index footprints of a record share one
expiration horizon.  Relative to the horizon stored on the forward entry,
this says the dedupe marker, every attribute SET holding the id, and the
time-index key carry that same horizon. -/
def FootprintsShareHorizon (st : Store) (i : String) : Prop :=
  ∀ t, (alookup i st.reqs).map (fun rt => rt.2) = some t →
    alookup i st.seen = some t ∧
      (∀ kv, i ∈ smembersL st kv → (alookup kv st.sets).map (fun ms => ms.2) = some t) ∧
      st.zttl = t

/-- An id has no index footprint outside the dedupe marker: no forward
entry, no time-index membership, no attribute SET membership. -/
def NotIndexed (st : Store) (i : String) : Prop :=
  alookup i st.reqs = none ∧ i ∉ zmem st ∧ ∀ kv, i ∉ smembersL st kv

/-- Every source occurrence of the id carries no usable date. -/
def PoisonOnly (items : List Entry) (i : String) : Prop :=
  ∀ r, Entry.record r ∈ items → r.id = some i → r.date = none

/-- The store invariant the search claims rest on: the time index is stored
in ascending score order, and every time-index entry points at a forward
record whose date field equals the entry score. -/
def StoreInv (st : Store) : Prop :=
  st.zset.Pairwise (fun a b => a.2 ≤ b.2) ∧
    ∀ p ∈ st.zset, (alookup p.1 st.reqs).map (fun rt => rt.1.date) = some (some p.2)

/-! ## Concrete fixtures used by witnesses and counterexamples -/

/-- Fixture record a: blocked request at time 1000. -/
def recA : RawRecord :=
  { id := some "a", date := some 1000, ip := some "1.2.3.4",
    server_name := some "w.example.com", security_mode := some "block",
    status := some 403, reason := some "lfi", country := some "MX",
    method := some "GET", url := some "/x", user_agent := some "Mozilla" }

/-- Fixture record b: blocked request at time 2000. -/
def recB : RawRecord :=
  { id := some "b", date := some 2000, ip := some "1.2.3.4",
    server_name := some "w.example.com", security_mode := some "block",
    status := some 403, reason := some "sqli", country := some "US",
    method := some "GET", url := some "/y", user_agent := some "curl" }

/-- Fixture record c: blocked request at time 3000 whose url holds admin. -/
def recC : RawRecord :=
  { id := some "c", date := some 3000, ip := some "5.6.7.8",
    server_name := some "w.example.com", security_mode := some "block",
    status := some 403, reason := some "sqli", country := some "US",
    method := some "POST", url := some "/admin/login", user_agent := some "Mozilla" }

/-- Fixture poison record: has an id but no usable date. -/
def recP : RawRecord := { id := some "p", date := none, ip := some "7.7.7.7" }

/-- Fixture indexer run over records a, b, c with 60-day retention. -/
def runABC : RunParams :=
  { source := [Entry.record recA, Entry.record recB, Entry.record recC],
    ttl_days := 60, chunk := 500 }

/-- Fixture store produced by one run over a, b, c. -/
def stABC : Store := buildStore [runABC]

/-- Fixture indexer run over record a and the poison record. -/
def runAP : RunParams :=
  { source := [Entry.record recA, Entry.record recP], ttl_days := 60, chunk := 500 }

/-- Fixture store produced by one run over a and the poison record. -/
def stAP : Store := buildStore [runAP]

/-! ## Basic lemmas on the association-list operations -/

theorem alookup_aset_self {κ β : Type} [DecidableEq κ] (k : κ) (v : β) (l : List (κ × β)) :
    alookup k (aset k v l) = some v := by
  induction l with
  | nil => simp [alookup, aset]
  | cons p l ih =>
    by_cases h : p.1 = k
    · simp [aset, h, alookup]
    · simp [aset, h, alookup, ih]

theorem alookup_aset_ne {κ β : Type} [DecidableEq κ] {k k' : κ} (v : β) (l : List (κ × β))
    (h : k' ≠ k) : alookup k' (aset k v l) = alookup k' l := by
  induction l with
  | nil =>
    have h1 : ¬ k = k' := fun hk => h hk.symm
    simp [alookup, aset, h1]
  | cons p l ih =>
    by_cases hp : p.1 = k
    · have h1 : ¬ k = k' := fun hk => h hk.symm
      have h2 : ¬ p.1 = k' := fun hk => h1 (hp.symm.trans hk)
      simp [aset, hp, alookup, h1, h2]
    · by_cases hq : p.1 = k'
      · simp [aset, hp, alookup, hq, h]
      · simp [aset, hp, alookup, hq, ih]

theorem mem_aset_elim {κ β : Type} [DecidableEq κ] {k : κ} {v : β} {l : List (κ × β)}
    {p : κ × β} (h : p ∈ aset k v l) : p = (k, v) ∨ p ∈ l := by
  induction l with
  | nil => simpa [aset] using h
  | cons q l ih =>
    by_cases hq : q.1 = k
    · simp only [aset, hq, if_pos rfl] at h
      rcases List.mem_cons.1 h with h | h
      · exact Or.inl h
      · exact Or.inr (List.mem_cons_of_mem _ h)
    · simp only [aset, if_neg hq, List.mem_cons] at h
      rcases h with h | h
      · exact Or.inr (List.mem_cons.2 (Or.inl h))
      · rcases ih h with h | h
        · exact Or.inl h
        · exact Or.inr (List.mem_cons_of_mem _ h)

theorem alookup_map_keyfix {κ β : Type} [DecidableEq κ] (k₀ : κ) (g : β → β)
    (l : List (κ × β)) (j : κ) :
    alookup j (l.map (fun p => if p.1 = k₀ then (p.1, g p.2) else p)) =
      if j = k₀ then (alookup j l).map g else alookup j l := by
  induction l with
  | nil => by_cases hj : j = k₀ <;> simp [alookup, hj]
  | cons p l ih =>
    by_cases hpk : p.1 = k₀ <;> by_cases hpj : p.1 = j <;> by_cases hj : j = k₀ <;>
      simp_all [alookup]

/-- Preservation of a predicate along a left fold. -/
theorem foldl_pres {α σ : Type} {f : σ → α → σ} {P : σ → Prop}
    (h : ∀ s x, P s → P (f s x)) : ∀ (l : List α) (s : σ), P s → P (l.foldl f s)
  | [], _, hs => hs
  | x :: l, s, hs => foldl_pres h l (f s x) (h s x hs)

/-! ## Projection lemmas: which fields each operation touches -/

theorem setSeenNX_reqs (st : Store) (i : String) (ttl : Option Nat) :
    (setSeenNX st i ttl).1.reqs = st.reqs := by
  unfold setSeenNX; cases alookup i st.seen <;> rfl

theorem setSeenNX_zset (st : Store) (i : String) (ttl : Option Nat) :
    (setSeenNX st i ttl).1.zset = st.zset := by
  unfold setSeenNX; cases alookup i st.seen <;> rfl

theorem setSeenNX_sets (st : Store) (i : String) (ttl : Option Nat) :
    (setSeenNX st i ttl).1.sets = st.sets := by
  unfold setSeenNX; cases alookup i st.seen <;> rfl

theorem setSeenNX_zttl (st : Store) (i : String) (ttl : Option Nat) :
    (setSeenNX st i ttl).1.zttl = st.zttl := by
  unfold setSeenNX; cases alookup i st.seen <;> rfl

theorem sadd_seen (st : Store) (kv : String × String) (i : String) :
    (sadd st kv i).seen = st.seen := by
  unfold sadd; cases alookup kv st.sets <;> rfl

theorem sadd_reqs (st : Store) (kv : String × String) (i : String) :
    (sadd st kv i).reqs = st.reqs := by
  unfold sadd; cases alookup kv st.sets <;> rfl

theorem sadd_zset (st : Store) (kv : String × String) (i : String) :
    (sadd st kv i).zset = st.zset := by
  unfold sadd; cases alookup kv st.sets <;> rfl

theorem sadd_zttl (st : Store) (kv : String × String) (i : String) :
    (sadd st kv i).zttl = st.zttl := by
  unfold sadd; cases alookup kv st.sets <;> rfl

theorem commitRecord_seen (ttl : Option Nat) (st : Store) (i : String) (r : RawRecord) (ts : ℚ) :
    (commitRecord ttl st i r ts).seen = st.seen := by
  unfold commitRecord
  have base : (zadd (match ttl with
      | some t => expireReq (setReq st i r) i t
      | none => setReq st i r) i ts).seen = st.seen := by
    cases ttl <;> rfl
  refine foldl_pres (P := fun (s : Store) => s.seen = st.seen) ?_ r.attrPairs _ base
  intro s kv hs
  cases ttl with
  | none => simpa [sadd_seen] using hs
  | some t => simp [expireSet, sadd_seen, hs]

theorem commitRecord_zttl (ttl : Option Nat) (st : Store) (i : String) (r : RawRecord) (ts : ℚ) :
    (commitRecord ttl st i r ts).zttl = st.zttl := by
  unfold commitRecord
  have base : (zadd (match ttl with
      | some t => expireReq (setReq st i r) i t
      | none => setReq st i r) i ts).zttl = st.zttl := by
    cases ttl <;> rfl
  refine foldl_pres (P := fun (s : Store) => s.zttl = st.zttl) ?_ r.attrPairs _ base
  intro s kv hs
  cases ttl with
  | none => simpa [sadd_zttl] using hs
  | some t => simp [expireSet, sadd_zttl, hs]

/-! ## Lemmas on the dedupe marker command -/

theorem setSeenNX_of_some {st : Store} {i : String} {t : Option Nat} (ttl : Option Nat)
    (h : alookup i st.seen = some t) : setSeenNX st i ttl = (st, false) := by
  unfold setSeenNX
  rw [h]

theorem setSeenNX_seen_ne {st : Store} {i j : String} (ttl : Option Nat) (h : j ≠ i) :
    alookup j ((setSeenNX st i ttl).1).seen = alookup j st.seen := by
  unfold setSeenNX
  cases hl : alookup i st.seen with
  | some t => rfl
  | none => simpa using alookup_aset_ne ttl st.seen h

theorem setSeenNX_marks (st : Store) (i : String) (ttl : Option Nat) :
    (alookup i ((setSeenNX st i ttl).1).seen).isSome := by
  unfold setSeenNX
  cases hl : alookup i st.seen with
  | some t => simp [hl]
  | none => simp [alookup_aset_self]

theorem setSeenNX_seen_pres {st : Store} {j : String} {t : Option Nat} (i : String)
    (ttl : Option Nat) (h : alookup j st.seen = some t) :
    alookup j ((setSeenNX st i ttl).1).seen = some t := by
  by_cases hij : j = i
  · subst hij
    rw [setSeenNX_of_some ttl h]
    exact h
  · rw [setSeenNX_seen_ne ttl hij]
    exact h

/-! ## Lemmas on pass 1 -/

theorem pass1_proj (ttl : Option Nat) (items : List Entry) :
    ∀ (st : Store) (rep : Report),
      (pass1 ttl items st rep).1.reqs = st.reqs ∧ (pass1 ttl items st rep).1.zset = st.zset ∧
        (pass1 ttl items st rep).1.sets = st.sets ∧ (pass1 ttl items st rep).1.zttl = st.zttl := by
  induction items with
  | nil => intro st rep; simp [pass1]
  | cons e rest ih =>
    intro st rep
    cases e with
    | malformed => simpa [pass1] using ih st _
    | record r =>
      cases hid : r.id with
      | none => simpa [pass1, hid] using ih st _
      | some i =>
        by_cases hi : i = ""
        · simpa [pass1, hid, hi] using ih st _
        · have := ih (setSeenNX st i ttl).1 rep
          simpa [pass1, hid, hi, setSeenNX_reqs, setSeenNX_zset, setSeenNX_sets,
            setSeenNX_zttl] using this

theorem pass1_counters (ttl : Option Nat) (items : List Entry) :
    ∀ (st : Store) (rep : Report),
      (pass1 ttl items st rep).2.1.new_count = rep.new_count ∧
        (pass1 ttl items st rep).2.1.no_date = rep.no_date := by
  induction items with
  | nil => intro st rep; simp [pass1]
  | cons e rest ih =>
    intro st rep
    cases e with
    | malformed => simpa [pass1] using ih st _
    | record r =>
      cases hid : r.id with
      | none => simpa [pass1, hid] using ih st _
      | some i =>
        by_cases hi : i = ""
        · simpa [pass1, hid, hi] using ih st _
        · simpa [pass1, hid, hi] using ih (setSeenNX st i ttl).1 rep

theorem pass1_seen_pres {t : Option Nat} (ttl : Option Nat) (items : List Entry)
    {j : String} :
    ∀ {st : Store} (rep : Report), alookup j st.seen = some t →
      alookup j ((pass1 ttl items st rep).1).seen = some t := by
  induction items with
  | nil => intro st rep h; simpa [pass1] using h
  | cons e rest ih =>
    intro st rep h
    cases e with
    | malformed => simpa [pass1] using ih _ h
    | record r =>
      cases hid : r.id with
      | none => simpa [pass1, hid] using ih _ h
      | some i =>
        by_cases hi : i = ""
        · simpa [pass1, hid, hi] using ih _ h
        · simpa [pass1, hid, hi] using ih _ (setSeenNX_seen_pres i ttl h)

theorem pass1_seen_ne (ttl : Option Nat) (items : List Entry) {j : String} :
    ∀ {st : Store} (rep : Report), j ∉ admissibleIds items →
      alookup j ((pass1 ttl items st rep).1).seen = alookup j st.seen := by
  induction items with
  | nil => intro st rep _; simp [pass1]
  | cons e rest ih =>
    intro st rep hj
    have hjr : j ∉ admissibleIds rest := by
      intro hmem
      apply hj
      rcases List.mem_filterMap.1 hmem with ⟨a, ha, he⟩
      exact List.mem_filterMap.2 ⟨a, List.mem_cons_of_mem _ ha, he⟩
    cases e with
    | malformed => simpa [pass1] using ih _ hjr
    | record r =>
      cases hid : r.id with
      | none => simpa [pass1, hid] using ih _ hjr
      | some i =>
        by_cases hi : i = ""
        · simpa [pass1, hid, hi] using ih _ hjr
        · have hji : j ≠ i := by
            intro hji
            exact hj (by
              subst hji
              simp [admissibleIds, entryId, hid, hi])
          have step := (@ih (setSeenNX st i ttl).1 rep hjr).trans
            (setSeenNX_seen_ne ttl hji)
          simpa [pass1, hid, hi] using step

theorem pass1_seen_isSome_mono (ttl : Option Nat) (items : List Entry) {j : String}
    {st : Store} (rep : Report) (h : (alookup j st.seen).isSome) :
    (alookup j ((pass1 ttl items st rep).1).seen).isSome := by
  cases hl : alookup j st.seen with
  | none => rw [hl] at h; simp at h
  | some t => rw [pass1_seen_pres ttl items rep hl]; rfl

theorem pass1_marks (ttl : Option Nat) (items : List Entry) {j : String} :
    ∀ {st : Store} (rep : Report), j ∈ admissibleIds items →
      (alookup j ((pass1 ttl items st rep).1).seen).isSome := by
  induction items with
  | nil => intro st rep h; simp [admissibleIds] at h
  | cons e rest ih =>
    intro st rep hmem
    rcases List.mem_filterMap.1 hmem with ⟨a, ha, he⟩
    rcases List.mem_cons.1 ha with ha | ha
    · rw [ha] at he
      cases e with
      | malformed => simp [entryId] at he
      | record r =>
        cases hid : r.id with
        | none => simp [entryId, hid] at he
        | some i =>
          by_cases hi : i = ""
          · simp [entryId, hid, hi] at he
          · have hij : i = j := by simpa [entryId, hid, hi] using he
            subst hij
            simpa [pass1, hid, hi] using
              pass1_seen_isSome_mono ttl rest rep (setSeenNX_marks st i ttl)
    · have hrest : j ∈ admissibleIds rest := List.mem_filterMap.2 ⟨a, ha, he⟩
      cases e with
      | malformed => simpa [pass1] using ih _ hrest
      | record r =>
        cases hid : r.id with
        | none => simpa [pass1, hid] using ih _ hrest
        | some i =>
          by_cases hi : i = ""
          · simpa [pass1, hid, hi] using ih _ hrest
          · simpa [pass1, hid, hi] using @ih (setSeenNX st i ttl).1 _ hrest

theorem pass1_allSeen_noop (ttl : Option Nat) (items : List Entry) :
    ∀ {st : Store} (rep : Report),
      (∀ i ∈ admissibleIds items, (alookup i st.seen).isSome) →
      (pass1 ttl items st rep).1 = st ∧
        ∀ x ∈ (pass1 ttl items st rep).2.2, x.2.2 = false := by
  induction items with
  | nil => intro st rep _; simp [pass1]
  | cons e rest ih =>
    intro st rep hall
    have hallr : ∀ i ∈ admissibleIds rest, (alookup i st.seen).isSome := by
      intro i hmem
      rcases List.mem_filterMap.1 hmem with ⟨a, ha, he⟩
      exact hall i (List.mem_filterMap.2 ⟨a, List.mem_cons_of_mem _ ha, he⟩)
    cases e with
    | malformed => simpa [pass1] using ih _ hallr
    | record r =>
      cases hid : r.id with
      | none => simpa [pass1, hid] using ih _ hallr
      | some i =>
        by_cases hi : i = ""
        · simpa [pass1, hid, hi] using ih _ hallr
        · have hmem : i ∈ admissibleIds (Entry.record r :: rest) := by
            simp [admissibleIds, entryId, hid, hi]
          have hsome := hall i hmem
          cases hl : alookup i st.seen with
          | none => rw [hl] at hsome; simp at hsome
          | some t =>
            have hnx : setSeenNX st i ttl = (st, false) := setSeenNX_of_some ttl hl
            have := @ih st rep hallr
            refine ⟨?_, ?_⟩
            · simpa [pass1, hid, hi, hnx] using this.1
            · intro x hx
              simp only [pass1, hid, hi, if_neg hi, hnx] at hx
              rcases List.mem_cons.1 hx with hx | hx
              · rw [hx]
              · exact this.2 x hx

theorem pass1_pf_sound (ttl : Option Nat) (items : List Entry) :
    ∀ {st : Store} (rep : Report) (x : String × RawRecord × Bool),
      x ∈ (pass1 ttl items st rep).2.2 →
      Entry.record x.2.1 ∈ items ∧ x.2.1.id = some x.1 ∧ ¬ x.1 = "" := by
  induction items with
  | nil => intro st rep x hx; simp [pass1] at hx
  | cons e rest ih =>
    intro st rep x hx
    cases e with
    | malformed =>
      simp only [pass1] at hx
      rcases ih _ x hx with ⟨h1, h2, h3⟩
      exact ⟨List.mem_cons_of_mem _ h1, h2, h3⟩
    | record r =>
      cases hid : r.id with
      | none =>
        simp only [pass1, hid] at hx
        rcases ih _ x hx with ⟨h1, h2, h3⟩
        exact ⟨List.mem_cons_of_mem _ h1, h2, h3⟩
      | some i =>
        by_cases hi : i = ""
        · simp only [pass1, hid, if_pos hi] at hx
          rcases ih _ x hx with ⟨h1, h2, h3⟩
          exact ⟨List.mem_cons_of_mem _ h1, h2, h3⟩
        · simp only [pass1, hid, if_neg hi] at hx
          rcases List.mem_cons.1 hx with hx | hx
          · subst hx
            exact ⟨List.mem_cons_self _ _, hid, hi⟩
          · rcases ih _ x hx with ⟨h1, h2, h3⟩
            exact ⟨List.mem_cons_of_mem _ h1, h2, h3⟩

theorem pass1_flag_true_exists (ttl : Option Nat) (items : List Entry) {j : String} :
    ∀ {st : Store} (rep : Report), alookup j st.seen = none → j ∈ admissibleIds items →
      ∃ r, (j, r, true) ∈ (pass1 ttl items st rep).2.2 := by
  induction items with
  | nil => intro st rep _ h; simp [admissibleIds] at h
  | cons e rest ih =>
    intro st rep hnone hmem
    rcases List.mem_filterMap.1 hmem with ⟨a, ha, he⟩
    rcases List.mem_cons.1 ha with ha | ha
    · rw [ha] at he
      cases e with
      | malformed => simp [entryId] at he
      | record r =>
        cases hid : r.id with
        | none => simp [entryId, hid] at he
        | some i =>
          by_cases hi : i = ""
          · simp [entryId, hid, hi] at he
          · have hij : i = j := by simpa [entryId, hid, hi] using he
            subst hij
            have hnx : (setSeenNX st i ttl).2 = true := by
              unfold setSeenNX
              rw [hnone]
            refine ⟨r, ?_⟩
            simp only [pass1, hid, if_neg hi]
            exact List.mem_cons.2 (Or.inl (by rw [hnx]))
    · have hrest : j ∈ admissibleIds rest := List.mem_filterMap.2 ⟨a, ha, he⟩
      cases e with
      | malformed =>
        simpa [pass1] using ih _ hnone hrest
      | record r =>
        cases hid : r.id with
        | none => simpa [pass1, hid] using ih _ hnone hrest
        | some i =>
          by_cases hi : i = ""
          · simpa [pass1, hid, hi] using ih _ hnone hrest
          · by_cases hij : j = i
            · subst hij
              have hnx : (setSeenNX st j ttl).2 = true := by
                unfold setSeenNX
                rw [hnone]
              refine ⟨r, ?_⟩
              simp only [pass1, hid, if_neg hi]
              exact List.mem_cons.2 (Or.inl (by rw [hnx]))
            · have hnone2 : alookup j ((setSeenNX st i ttl).1).seen = none := by
                rw [setSeenNX_seen_ne ttl hij]; exact hnone
              rcases @ih (setSeenNX st i ttl).1 rep hnone2 hrest with ⟨r2, hr2⟩
              refine ⟨r2, ?_⟩
              simp only [pass1, hid, if_neg hi]
              exact List.mem_cons_of_mem _ hr2

/-! ## Lemmas on pass 2 -/

theorem pass2_pres {P : Store → Prop} (ttl : Option Nat)
    (h : ∀ st i r ts, r.date = some ts → P st → P (commitRecord ttl st i r ts)) :
    ∀ (pf : List (String × RawRecord × Bool)) (st : Store) (rep : Report),
      P st → P (pass2 ttl pf st rep).1 := by
  intro pf
  induction pf with
  | nil => intro st rep hp; simpa [pass2] using hp
  | cons x rest ih =>
    intro st rep hp
    rcases x with ⟨i, r, b⟩
    cases b with
    | false => simpa [pass2] using ih _ _ hp
    | true =>
      cases hd : r.date with
      | none => simpa [pass2, hd] using ih _ _ hp
      | some ts => simpa [pass2, hd] using ih _ _ (h st i r ts hd hp)

theorem pass2_seen (ttl : Option Nat) (pf : List (String × RawRecord × Bool)) :
    ∀ (st : Store) (rep : Report), ((pass2 ttl pf st rep).1).seen = st.seen := by
  induction pf with
  | nil => intro st rep; simp [pass2]
  | cons x rest ih =>
    intro st rep
    rcases x with ⟨i, r, b⟩
    cases b with
    | false => simpa [pass2] using ih st _
    | true =>
      cases hd : r.date with
      | none => simpa [pass2, hd] using ih st _
      | some ts =>
        have := ih (commitRecord ttl st i r ts) { rep with new_count := rep.new_count + 1 }
        simpa [pass2, hd, commitRecord_seen] using this

theorem pass2_allFalse (ttl : Option Nat) (pf : List (String × RawRecord × Bool)) :
    ∀ (st : Store) (rep : Report), (∀ x ∈ pf, x.2.2 = false) →
      pass2 ttl pf st rep = (st, rep) := by
  induction pf with
  | nil => intro st rep _; simp [pass2]
  | cons x rest ih =>
    intro st rep hall
    rcases x with ⟨i, r, b⟩
    have hb : b = false := hall (i, r, b) (List.mem_cons_self _ _)
    subst hb
    simpa [pass2] using ih st rep (fun y hy => hall y (List.mem_cons_of_mem _ hy))

theorem pass2_no_date_mono (ttl : Option Nat) (pf : List (String × RawRecord × Bool)) :
    ∀ (st : Store) (rep : Report), rep.no_date ≤ (pass2 ttl pf st rep).2.no_date := by
  induction pf with
  | nil => intro st rep; simp [pass2]
  | cons x rest ih =>
    intro st rep
    rcases x with ⟨i, r, b⟩
    cases b with
    | false => simpa [pass2] using ih st rep
    | true =>
      cases hd : r.date with
      | none =>
        have hm := ih st { rep with no_date := rep.no_date + 1 }
        simp [pass2, hd] at hm ⊢
        omega
      | some ts =>
        have := ih (commitRecord ttl st i r ts) { rep with new_count := rep.new_count + 1 }
        simpa [pass2, hd] using this

theorem pass2_no_date_bump (ttl : Option Nat) (pf : List (String × RawRecord × Bool))
    {j : String} {r0 : RawRecord} :
    ∀ (st : Store) (rep : Report), (j, r0, true) ∈ pf → r0.date = none →
      rep.no_date + 1 ≤ (pass2 ttl pf st rep).2.no_date := by
  induction pf with
  | nil => intro st rep h _; simp at h
  | cons x rest ih =>
    intro st rep hmem hd0
    rcases List.mem_cons.1 hmem with heq | hmem'
    · rw [← heq]
      have hm := pass2_no_date_mono ttl rest st { rep with no_date := rep.no_date + 1 }
      simp [pass2, hd0] at hm ⊢
      omega
    · rcases x with ⟨i, r, b⟩
      cases b with
      | false => simpa [pass2] using ih st rep hmem' hd0
      | true =>
        cases hd : r.date with
        | none =>
          have hm := ih st { rep with no_date := rep.no_date + 1 } hmem' hd0
          simp [pass2, hd] at hm ⊢
          omega
        | some ts =>
          have := ih (commitRecord ttl st i r ts)
            { rep with new_count := rep.new_count + 1 } hmem' hd0
          simpa [pass2, hd] using this

/-! ## Lemmas on the chunk loop -/

theorem admissible_sub_of_sublist {l l' : List Entry} (h : List.Sublist l l') :
    ∀ j ∈ admissibleIds l, j ∈ admissibleIds l' :=
  fun _ hj => (h.filterMap entryId).subset hj

theorem admissible_take_drop (n : Nat) (items : List Entry) :
    admissibleIds items = admissibleIds (items.take n) ++ admissibleIds (items.drop n) := by
  unfold admissibleIds
  rw [← List.filterMap_append, List.take_append_drop]

theorem chunkStep_seen_pres {j : String} {t : Option Nat} (ttl : Option Nat)
    (batch : List Entry) (st : Store) (rep : Report) (h : alookup j st.seen = some t) :
    alookup j ((chunkStep ttl batch (st, rep)).1).seen = some t := by
  unfold chunkStep
  rw [pass2_seen]
  exact pass1_seen_pres ttl batch rep h

theorem chunkStep_seen_isSome_mono {j : String} (ttl : Option Nat) (batch : List Entry)
    (st : Store) (rep : Report) (h : (alookup j st.seen).isSome) :
    (alookup j ((chunkStep ttl batch (st, rep)).1).seen).isSome := by
  unfold chunkStep
  rw [pass2_seen]
  exact pass1_seen_isSome_mono ttl batch rep h

theorem chunkStep_marks {j : String} (ttl : Option Nat) (batch : List Entry)
    (st : Store) (rep : Report) (h : j ∈ admissibleIds batch) :
    (alookup j ((chunkStep ttl batch (st, rep)).1).seen).isSome := by
  unfold chunkStep
  rw [pass2_seen]
  exact pass1_marks ttl batch rep h

theorem chunkStep_allSeen (ttl : Option Nat) (batch : List Entry) (st : Store) (rep : Report)
    (h : ∀ i ∈ admissibleIds batch, (alookup i st.seen).isSome) :
    (chunkStep ttl batch (st, rep)).1 = st ∧
      (chunkStep ttl batch (st, rep)).2.new_count = rep.new_count ∧
      (chunkStep ttl batch (st, rep)).2.no_date = rep.no_date := by
  have hnoop := pass1_allSeen_noop ttl batch rep h
  have hcnt := pass1_counters ttl batch st rep
  unfold chunkStep
  rw [pass2_allFalse ttl _ _ _ hnoop.2]
  exact ⟨hnoop.1, hcnt.1, hcnt.2⟩

theorem indexChunks_chunk0 (ttl : Option Nat) (fuel : Nat) (items : List Entry)
    (sr : Store × Report) : indexChunks ttl 0 fuel items sr = sr := by
  cases fuel with
  | zero => rfl
  | succ n => cases items with
    | nil => rfl
    | cons x xs => simp [indexChunks]

theorem indexChunks_seen_pres {j : String} {t : Option Nat} (ttl : Option Nat)
    (chunkSize : Nat) :
    ∀ (fuel : Nat) (items : List Entry) (st : Store) (rep : Report),
      alookup j st.seen = some t →
      alookup j ((indexChunks ttl chunkSize fuel items (st, rep)).1).seen = some t := by
  intro fuel
  induction fuel with
  | zero => intro items st rep h; simpa [indexChunks] using h
  | succ n ih =>
    intro items st rep h
    cases items with
    | nil => simpa [indexChunks] using h
    | cons x xs =>
      by_cases hc : chunkSize = 0
      · simpa [indexChunks, hc] using h
      · have hstep := chunkStep_seen_pres ttl ((x :: xs).take chunkSize) st rep h
        simp only [indexChunks, if_neg hc]
        rcases hsr : chunkStep ttl ((x :: xs).take chunkSize) (st, rep) with ⟨st', rep'⟩
        rw [hsr] at hstep
        exact ih _ st' rep' hstep

theorem indexChunks_seen_isSome (ttl : Option Nat) (chunkSize : Nat) {j : String} :
    ∀ (fuel : Nat) (items : List Entry) (st : Store) (rep : Report),
      (alookup j st.seen).isSome →
      (alookup j ((indexChunks ttl chunkSize fuel items (st, rep)).1).seen).isSome := by
  intro fuel items st rep h
  cases hl : alookup j st.seen with
  | none => rw [hl] at h; simp at h
  | some t => rw [indexChunks_seen_pres ttl chunkSize fuel items st rep hl]; rfl

theorem indexChunks_marks (ttl : Option Nat) (chunkSize : Nat) (hc : 1 ≤ chunkSize)
    {j : String} :
    ∀ (fuel : Nat) (items : List Entry) (st : Store) (rep : Report),
      items.length ≤ fuel →
      ((alookup j st.seen).isSome ∨ j ∈ admissibleIds items) →
      (alookup j ((indexChunks ttl chunkSize fuel items (st, rep)).1).seen).isSome := by
  intro fuel
  induction fuel with
  | zero =>
    intro items st rep hlen hj
    have : items = [] := List.length_eq_zero.1 (Nat.le_zero.1 hlen)
    subst this
    rcases hj with hj | hj
    · simpa [indexChunks] using hj
    · simp [admissibleIds] at hj
  | succ n ih =>
    intro items st rep hlen hj
    cases items with
    | nil =>
      rcases hj with hj | hj
      · simpa [indexChunks] using hj
      · simp [admissibleIds] at hj
    | cons x xs =>
      have hc0 : ¬ chunkSize = 0 := by omega
      simp only [indexChunks, if_neg hc0]
      rcases hsr : chunkStep ttl ((x :: xs).take chunkSize) (st, rep) with ⟨st', rep'⟩
      have hlen' : ((x :: xs).drop chunkSize).length ≤ n := by
        simp only [List.length_drop, List.length_cons] at *
        omega
      rcases hj with hj | hj
      · have := chunkStep_seen_isSome_mono ttl ((x :: xs).take chunkSize) st rep hj
        rw [hsr] at this
        exact ih _ st' rep' hlen' (Or.inl this)
      · rw [admissible_take_drop chunkSize (x :: xs)] at hj
        rcases List.mem_append.1 hj with hj | hj
        · have := chunkStep_marks ttl ((x :: xs).take chunkSize) st rep hj
          rw [hsr] at this
          exact ih _ st' rep' hlen' (Or.inl this)
        · exact ih _ st' rep' hlen' (Or.inr hj)

theorem indexChunks_allSeen (ttl : Option Nat) (chunkSize : Nat) :
    ∀ (fuel : Nat) (items : List Entry) (st : Store) (rep : Report),
      (∀ i ∈ admissibleIds items, (alookup i st.seen).isSome) →
      (indexChunks ttl chunkSize fuel items (st, rep)).1 = st ∧
        (indexChunks ttl chunkSize fuel items (st, rep)).2.new_count = rep.new_count ∧
        (indexChunks ttl chunkSize fuel items (st, rep)).2.no_date = rep.no_date := by
  intro fuel
  induction fuel with
  | zero => intro items st rep _; simp [indexChunks]
  | succ n ih =>
    intro items st rep hall
    cases items with
    | nil => simp [indexChunks]
    | cons x xs =>
      by_cases hc : chunkSize = 0
      · simp [indexChunks, hc]
      · have htake : ∀ i ∈ admissibleIds ((x :: xs).take chunkSize), (alookup i st.seen).isSome :=
          fun i hi => hall i (admissible_sub_of_sublist (List.take_sublist _ _) i hi)
        have hstep := chunkStep_allSeen ttl ((x :: xs).take chunkSize) st rep htake
        have hdrop : ∀ i ∈ admissibleIds ((x :: xs).drop chunkSize), (alookup i st.seen).isSome :=
          fun i hi => hall i (admissible_sub_of_sublist (List.drop_sublist _ _) i hi)
        simp only [indexChunks, if_neg hc]
        rcases hsr : chunkStep ttl ((x :: xs).take chunkSize) (st, rep) with ⟨st', rep'⟩
        rw [hsr] at hstep
        have hst' : st' = st := hstep.1
        subst hst'
        have := ih _ st' rep' hdrop
        exact ⟨this.1, this.2.1.trans hstep.2.1, this.2.2.trans hstep.2.2⟩

/-- Running the indexer a second time over the same source is a complete
no-op on the database, and the second run reports zero new records. -/
theorem runIndexer_idem (st : Store) (p : RunParams) :
    (runIndexer ((runIndexer st p).1) p).1 = (runIndexer st p).1 ∧
      (runIndexer ((runIndexer st p).1) p).2.new_count = 0 := by
  by_cases hc : p.chunk = 0
  · unfold runIndexer
    rw [hc]
    simp [indexChunks_chunk0]
  · have hc1 : 1 ≤ p.chunk := by omega
    have hall : ∀ i ∈ admissibleIds p.source,
        (alookup i ((runIndexer st p).1).seen).isSome := by
      intro i hi
      unfold runIndexer
      exact indexChunks_marks (ttlOf p.ttl_days) p.chunk hc1 p.source.length p.source st {}
        (Nat.le_refl _) (Or.inr hi)
    have := indexChunks_allSeen (ttlOf p.ttl_days) p.chunk p.source.length p.source
      ((runIndexer st p).1) {} hall
    exact ⟨this.1, this.2.1⟩

/-! ## Lemmas on index footprints of a single id -/

theorem mem_zinsert {q : String × ℚ} {m : String} {sc : ℚ} :
    ∀ {l : List (String × ℚ)}, q ∈ zinsert m sc l → q = (m, sc) ∨ q ∈ l := by
  intro l
  induction l with
  | nil => intro h; simpa [zinsert] using h
  | cons p l ih =>
    intro h
    by_cases hlt : sc < p.2
    · simp only [zinsert, if_pos hlt, List.mem_cons] at h
      rcases h with h | h | h
      · exact Or.inl h
      · exact Or.inr (List.mem_cons.2 (Or.inl h))
      · exact Or.inr (List.mem_cons_of_mem _ h)
    · simp only [zinsert, if_neg hlt, List.mem_cons] at h
      rcases h with h | h
      · exact Or.inr (List.mem_cons.2 (Or.inl h))
      · rcases ih h with h | h
        · exact Or.inl h
        · exact Or.inr (List.mem_cons_of_mem _ h)

theorem zmem_zadd_elim {st : Store} {m j : String} {sc : ℚ}
    (h : j ∈ zmem (zadd st m sc)) : j = m ∨ j ∈ zmem st := by
  rcases List.mem_map.1 h with ⟨q, hq, hqj⟩
  rcases mem_zinsert hq with hq | hq
  · left; rw [← hqj, hq]
  · right
    exact List.mem_map.2 ⟨q, (List.mem_filter.1 hq).1, hqj⟩

theorem smembersL_expireSet (st : Store) (kv kv' : String × String) (t : Nat) :
    smembersL (expireSet st kv t) kv' = smembersL st kv' := by
  unfold smembersL expireSet
  rw [show (st.sets.map (fun p => if p.1 = kv then (p.1, (p.2.1, some t)) else p)) =
      (st.sets.map (fun p => if p.1 = kv then (p.1, (fun v : List String × Option Nat =>
        (v.1, some t)) p.2) else p)) from rfl]
  rw [alookup_map_keyfix kv (fun v : List String × Option Nat => (v.1, some t)) st.sets kv']
  by_cases h : kv' = kv
  · rw [if_pos h]
    cases alookup kv' st.sets <;> rfl
  · rw [if_neg h]

theorem mem_smembersL_sadd {st : Store} {kv kv' : String × String} {i j : String}
    (h : j ∈ smembersL (sadd st kv i) kv') : j = i ∨ j ∈ smembersL st kv' := by
  unfold sadd at h
  cases hl : alookup kv st.sets with
  | none =>
    rw [hl] at h
    unfold smembersL at h ⊢
    by_cases hk : kv' = kv
    · subst hk
      simp only [alookup_aset_self] at h
      simp only [List.mem_singleton] at h
      exact Or.inl h
    · rw [show alookup kv' (aset kv ([i], none) st.sets) = alookup kv' st.sets from
        alookup_aset_ne _ _ hk] at h
      exact Or.inr h
  | some ms =>
    rw [hl] at h
    unfold smembersL at h ⊢
    by_cases hk : kv' = kv
    · subst hk
      simp only [alookup_aset_self] at h
      by_cases hmem : i ∈ ms.1
      · rw [if_pos hmem] at h
        rw [hl]
        exact Or.inr h
      · rw [if_neg hmem] at h
        rcases List.mem_append.1 h with h | h
        · rw [hl]; exact Or.inr h
        · exact Or.inl (List.mem_singleton.1 h)
    · rw [show alookup kv' (aset kv (if i ∈ ms.1 then ms.1 else ms.1 ++ [i], ms.2) st.sets) =
        alookup kv' st.sets from alookup_aset_ne _ _ hk] at h
      exact Or.inr h

theorem expireReq_lookup (st : Store) (i j : String) (t : Nat) :
    alookup j (expireReq st i t).reqs =
      if j = i then (alookup j st.reqs).map (fun rt => (rt.1, some t))
      else alookup j st.reqs := by
  unfold expireReq
  exact alookup_map_keyfix i (fun rt : RawRecord × Option Nat => (rt.1, some t)) st.reqs j

theorem commitRecord_reqs (ttl : Option Nat) (st : Store) (i : String) (r : RawRecord)
    (ts : ℚ) :
    (commitRecord ttl st i r ts).reqs =
      (match ttl with
        | some t => expireReq (setReq st i r) i t
        | none => setReq st i r).reqs := by
  unfold commitRecord
  refine foldl_pres (P := fun (s : Store) => s.reqs =
    (match ttl with
      | some t => expireReq (setReq st i r) i t
      | none => setReq st i r).reqs) ?_ r.attrPairs _ ?_
  · intro s kv hs
    cases ttl with
    | none => simpa [sadd_reqs] using hs
    | some t => simp only [expireSet]; simpa [sadd_reqs] using hs
  · cases ttl <;> rfl

theorem commitRecord_zset (ttl : Option Nat) (st : Store) (i : String) (r : RawRecord)
    (ts : ℚ) :
    (commitRecord ttl st i r ts).zset =
      zinsert i ts (st.zset.filter (fun p => decide (p.1 ≠ i))) := by
  unfold commitRecord
  have base : (zadd (match ttl with
      | some t => expireReq (setReq st i r) i t
      | none => setReq st i r) i ts).zset =
      zinsert i ts (st.zset.filter (fun p => decide (p.1 ≠ i))) := by
    cases ttl <;> rfl
  refine foldl_pres (P := fun (s : Store) => s.zset =
    zinsert i ts (st.zset.filter (fun p => decide (p.1 ≠ i)))) ?_ r.attrPairs _ base
  intro s kv hs
  cases ttl with
  | none => simpa [sadd_zset] using hs
  | some t => simp only [expireSet]; simpa [sadd_zset] using hs

theorem commitRecord_smembers_elim (ttl : Option Nat) (st : Store) (i : String)
    (r : RawRecord) (ts : ℚ) {j : String} {kv : String × String}
    (h : j ∈ smembersL (commitRecord ttl st i r ts) kv) :
    j = i ∨ j ∈ smembersL st kv := by
  unfold commitRecord at h
  have base : ∀ kv', smembersL (zadd (match ttl with
      | some t => expireReq (setReq st i r) i t
      | none => setReq st i r) i ts) kv' = smembersL st kv' := by
    intro kv'
    cases ttl <;> rfl
  revert h
  refine foldl_pres (P := fun (s : Store) =>
    j ∈ smembersL s kv → j = i ∨ j ∈ smembersL st kv) ?_ r.attrPairs _ ?_
  · intro s x hp hmem
    cases ttl with
    | none => exact (mem_smembersL_sadd hmem).elim Or.inl hp
    | some t =>
      rw [smembersL_expireSet] at hmem
      exact (mem_smembersL_sadd hmem).elim Or.inl hp
  · intro hmem
    rw [base kv] at hmem
    exact Or.inr hmem

theorem commitRecord_notIndexed (ttl : Option Nat) (st : Store) {i j : String}
    (r : RawRecord) (ts : ℚ) (hne : j ≠ i) (h : NotIndexed st j) :
    NotIndexed (commitRecord ttl st i r ts) j := by
  rcases h with ⟨h1, h2, h3⟩
  refine ⟨?_, ?_, ?_⟩
  · rw [commitRecord_reqs]
    cases ttl with
    | none => simpa [setReq, alookup_aset_ne _ _ hne] using h1
    | some t =>
      rw [expireReq_lookup, if_neg hne]
      simpa [setReq, alookup_aset_ne _ _ hne] using h1
  · intro hmem
    unfold zmem at hmem
    rw [commitRecord_zset] at hmem
    rcases List.mem_map.1 hmem with ⟨q, hq, hqj⟩
    rcases mem_zinsert hq with hq | hq
    · exact hne (by rw [← hqj, hq])
    · exact h2 (List.mem_map.2 ⟨q, (List.mem_filter.1 hq).1, hqj⟩)
  · intro kv hmem
    exact (commitRecord_smembers_elim ttl st i r ts hmem).elim hne (h3 kv)

theorem NotIndexed_congr {st st' : Store} {j : String} (h1 : st'.reqs = st.reqs)
    (h2 : st'.zset = st.zset) (h3 : st'.sets = st.sets) (h : NotIndexed st j) :
    NotIndexed st' j := by
  rcases h with ⟨ha, hb, hc⟩
  refine ⟨?_, ?_, ?_⟩
  · rw [h1]; exact ha
  · unfold zmem; rw [h2]; exact hb
  · intro kv; unfold smembersL; rw [h3]; exact hc kv

theorem pass1_notIndexed (ttl : Option Nat) (items : List Entry) (st : Store) (rep : Report)
    {j : String} (h : NotIndexed st j) : NotIndexed ((pass1 ttl items st rep).1) j := by
  have hp := pass1_proj ttl items st rep
  exact NotIndexed_congr hp.1 hp.2.1 hp.2.2.1 h

theorem pass2_notIndexed (ttl : Option Nat) (pf : List (String × RawRecord × Bool))
    {j : String} :
    ∀ (st : Store) (rep : Report),
      (∀ x ∈ pf, x.2.2 = true → x.1 = j → x.2.1.date = none) →
      NotIndexed st j → NotIndexed ((pass2 ttl pf st rep).1) j := by
  induction pf with
  | nil => intro st rep _ h; simpa [pass2] using h
  | cons x rest ih =>
    intro st rep hpois h
    have hpois' : ∀ y ∈ rest, y.2.2 = true → y.1 = j → y.2.1.date = none :=
      fun y hy => hpois y (List.mem_cons_of_mem _ hy)
    rcases x with ⟨i, r, b⟩
    cases b with
    | false => simpa [pass2] using ih st _ hpois' h
    | true =>
      cases hd : r.date with
      | none => simpa [pass2, hd] using ih st _ hpois' h
      | some ts =>
        have hne : j ≠ i := by
          intro hji
          have := hpois (i, r, true) (List.mem_cons_self _ _) rfl hji.symm
          rw [this] at hd
          exact Option.noConfusion hd
        have hcommit := commitRecord_notIndexed ttl st r ts hne h
        simpa [pass2, hd] using
          ih (commitRecord ttl st i r ts) _ hpois' hcommit

theorem chunkStep_notIndexed (ttl : Option Nat) (batch : List Entry) (st : Store)
    (rep : Report) {j : String} (hpois : PoisonOnly batch j) (h : NotIndexed st j) :
    NotIndexed ((chunkStep ttl batch (st, rep)).1) j := by
  unfold chunkStep
  refine pass2_notIndexed ttl _ _ _ ?_ (pass1_notIndexed ttl batch st rep h)
  intro x hx _ hxj
  rcases pass1_pf_sound ttl batch rep x hx with ⟨hin, hid, _⟩
  exact hpois x.2.1 hin (hxj ▸ hid)

theorem chunkStep_seen_ne {j : String} (ttl : Option Nat) (batch : List Entry)
    (st : Store) (rep : Report) (h : j ∉ admissibleIds batch) :
    alookup j ((chunkStep ttl batch (st, rep)).1).seen = alookup j st.seen := by
  unfold chunkStep
  rw [pass2_seen]
  exact pass1_seen_ne ttl batch _ h

theorem chunkStep_no_date_mono (ttl : Option Nat) (batch : List Entry) (st : Store)
    (rep : Report) : rep.no_date ≤ (chunkStep ttl batch (st, rep)).2.no_date := by
  simp only [chunkStep]
  have h1 := (pass1_counters ttl batch st rep).2
  have h2 := pass2_no_date_mono ttl (pass1 ttl batch st rep).2.2
    (pass1 ttl batch st rep).1 (pass1 ttl batch st rep).2.1
  omega

theorem chunkStep_no_date_bump (ttl : Option Nat) (batch : List Entry) (st : Store)
    (rep : Report) {j : String} (hmem : j ∈ admissibleIds batch)
    (hnone : alookup j st.seen = none) (hpois : PoisonOnly batch j) :
    rep.no_date + 1 ≤ (chunkStep ttl batch (st, rep)).2.no_date := by
  simp only [chunkStep]
  rcases pass1_flag_true_exists ttl batch rep hnone hmem with ⟨r, hr⟩
  rcases pass1_pf_sound ttl batch rep (j, r, true) hr with ⟨hin, hid, _⟩
  have hd : r.date = none := hpois r hin hid
  have h1 := (pass1_counters ttl batch st rep).2
  have h2 := pass2_no_date_bump ttl (pass1 ttl batch st rep).2.2
    (pass1 ttl batch st rep).1 (pass1 ttl batch st rep).2.1 hr hd
  omega

theorem indexChunks_notIndexed (ttl : Option Nat) (chunkSize : Nat) {j : String} :
    ∀ (fuel : Nat) (items : List Entry) (st : Store) (rep : Report),
      PoisonOnly items j → NotIndexed st j →
      NotIndexed ((indexChunks ttl chunkSize fuel items (st, rep)).1) j := by
  intro fuel
  induction fuel with
  | zero => intro items st rep _ h; simpa [indexChunks] using h
  | succ n ih =>
    intro items st rep hpois h
    cases items with
    | nil => simpa [indexChunks] using h
    | cons x xs =>
      by_cases hc : chunkSize = 0
      · simpa [indexChunks, hc] using h
      · simp only [indexChunks, if_neg hc]
        have hptake : PoisonOnly ((x :: xs).take chunkSize) j :=
          fun r hr hid => hpois r ((List.take_sublist _ _).subset hr) hid
        have hpdrop : PoisonOnly ((x :: xs).drop chunkSize) j :=
          fun r hr hid => hpois r ((List.drop_sublist _ _).subset hr) hid
        have hstep := chunkStep_notIndexed ttl ((x :: xs).take chunkSize) st rep hptake h
        rcases hsr : chunkStep ttl ((x :: xs).take chunkSize) (st, rep) with ⟨st', rep'⟩
        rw [hsr] at hstep
        exact ih _ st' rep' hpdrop hstep

theorem indexChunks_no_date_mono (ttl : Option Nat) (chunkSize : Nat) :
    ∀ (fuel : Nat) (items : List Entry) (st : Store) (rep : Report),
      rep.no_date ≤ (indexChunks ttl chunkSize fuel items (st, rep)).2.no_date := by
  intro fuel
  induction fuel with
  | zero => intro items st rep; simp [indexChunks]
  | succ n ih =>
    intro items st rep
    cases items with
    | nil => simp [indexChunks]
    | cons x xs =>
      by_cases hc : chunkSize = 0
      · simp [indexChunks, hc]
      · simp only [indexChunks, if_neg hc]
        have hstep := chunkStep_no_date_mono ttl ((x :: xs).take chunkSize) st rep
        rcases hsr : chunkStep ttl ((x :: xs).take chunkSize) (st, rep) with ⟨st', rep'⟩
        rw [hsr] at hstep
        exact hstep.trans (ih _ st' rep')

theorem indexChunks_no_date_bump (ttl : Option Nat) (chunkSize : Nat)
    (hc : 1 ≤ chunkSize) {j : String} :
    ∀ (fuel : Nat) (items : List Entry) (st : Store) (rep : Report),
      items.length ≤ fuel → j ∈ admissibleIds items → alookup j st.seen = none →
      PoisonOnly items j →
      rep.no_date + 1 ≤ (indexChunks ttl chunkSize fuel items (st, rep)).2.no_date := by
  intro fuel
  induction fuel with
  | zero =>
    intro items st rep hlen hj _ _
    have : items = [] := List.length_eq_zero.1 (Nat.le_zero.1 hlen)
    subst this
    simp [admissibleIds] at hj
  | succ n ih =>
    intro items st rep hlen hj hnone hpois
    cases items with
    | nil => simp [admissibleIds] at hj
    | cons x xs =>
      have hc0 : ¬ chunkSize = 0 := by omega
      simp only [indexChunks, if_neg hc0]
      have hptake : PoisonOnly ((x :: xs).take chunkSize) j :=
        fun r hr hid => hpois r ((List.take_sublist _ _).subset hr) hid
      have hpdrop : PoisonOnly ((x :: xs).drop chunkSize) j :=
        fun r hr hid => hpois r ((List.drop_sublist _ _).subset hr) hid
      have hlen' : ((x :: xs).drop chunkSize).length ≤ n := by
        simp only [List.length_drop, List.length_cons] at *
        omega
      rw [admissible_take_drop chunkSize (x :: xs)] at hj
      rcases List.mem_append.1 hj with hj | hj
      · have hbump := chunkStep_no_date_bump ttl ((x :: xs).take chunkSize) st rep hj
          hnone hptake
        rcases hsr : chunkStep ttl ((x :: xs).take chunkSize) (st, rep) with ⟨st', rep'⟩
        rw [hsr] at hbump
        exact hbump.trans (indexChunks_no_date_mono ttl chunkSize n _ st' rep')
      · by_cases hjt : j ∈ admissibleIds ((x :: xs).take chunkSize)
        · have hbump := chunkStep_no_date_bump ttl ((x :: xs).take chunkSize) st rep hjt
            hnone hptake
          rcases hsr : chunkStep ttl ((x :: xs).take chunkSize) (st, rep) with ⟨st', rep'⟩
          rw [hsr] at hbump
          exact hbump.trans (indexChunks_no_date_mono ttl chunkSize n _ st' rep')
        · have hseen := chunkStep_seen_ne ttl ((x :: xs).take chunkSize) st rep hjt
          rcases hsr : chunkStep ttl ((x :: xs).take chunkSize) (st, rep) with ⟨st', rep'⟩
          rw [hsr] at hseen
          have hnone' : alookup j st'.seen = none := hseen.trans hnone
          have hrep' : rep.no_date ≤ rep'.no_date := by
            have := chunkStep_no_date_mono ttl ((x :: xs).take chunkSize) st rep
            rw [hsr] at this
            exact this
          have := ih _ st' rep' hlen' hj hnone' hpdrop
          omega

/-! ## Preservation of the retention horizon invariant -/

theorem setSeenNX_ttlAll {T : Nat} {st : Store} (i : String) (h : TtlAll T st) :
    TtlAll T ((setSeenNX st i (some T)).1) := by
  rcases h with ⟨h1, h2, h3, h4⟩
  unfold setSeenNX
  cases hl : alookup i st.seen with
  | some t => exact ⟨h1, h2, h3, h4⟩
  | none =>
    refine ⟨?_, h2, h3, h4⟩
    intro p hp
    rcases mem_aset_elim hp with hp | hp
    · rw [hp]
    · exact h1 p hp

theorem commitRecord_ttlAll {T : Nat} {st : Store} (i : String) (r : RawRecord) (ts : ℚ)
    (h : TtlAll T st) : TtlAll T (commitRecord (some T) st i r ts) := by
  rcases h with ⟨h1, h2, h3, h4⟩
  refine ⟨?_, ?_, ?_, ?_⟩
  · rw [commitRecord_seen]; exact h1
  · rw [commitRecord_reqs]
    intro p hp
    simp only [expireReq, setReq, List.mem_map] at hp
    rcases hp with ⟨q, hq, hqp⟩
    by_cases hqi : q.1 = i
    · rw [← hqp, if_pos hqi]
    · rw [← hqp, if_neg hqi]
      rcases mem_aset_elim hq with hq | hq
      · exact absurd (by rw [hq]) hqi
      · exact h2 q hq
  · have base : ∀ p ∈ (zadd (expireReq (setReq st i r) i T) i ts).sets, p.2.2 = some T := by
      intro p hp
      exact h3 p hp
    revert base
    unfold commitRecord
    refine foldl_pres (P := fun (s : Store) => ∀ p ∈ s.sets, p.2.2 = some T)
      ?_ r.attrPairs _
    intro s kv hs p hp
    simp only [expireSet, List.mem_map] at hp
    rcases hp with ⟨q, hq, hqp⟩
    by_cases hqk : q.1 = kv
    · rw [← hqp, if_pos hqk]
    · rw [← hqp, if_neg hqk]
      unfold sadd at hq
      cases hl : alookup kv s.sets with
      | none =>
        rw [hl] at hq
        simp only at hq
        rcases mem_aset_elim hq with hq | hq
        · exact absurd (by rw [hq]) hqk
        · exact hs q hq
      | some ms =>
        rw [hl] at hq
        simp only at hq
        rcases mem_aset_elim hq with hq | hq
        · exact absurd (by rw [hq]) hqk
        · exact hs q hq
  · rw [commitRecord_zttl]; exact h4

theorem pass1_ttlAll {T : Nat} (items : List Entry) :
    ∀ {st : Store} (rep : Report), TtlAll T st → TtlAll T ((pass1 (some T) items st rep).1) := by
  induction items with
  | nil => intro st rep h; simpa [pass1] using h
  | cons e rest ih =>
    intro st rep h
    cases e with
    | malformed => simpa [pass1] using ih _ h
    | record r =>
      cases hid : r.id with
      | none => simpa [pass1, hid] using ih _ h
      | some i =>
        by_cases hi : i = ""
        · simpa [pass1, hid, hi] using ih _ h
        · simpa [pass1, hid, hi] using ih _ (setSeenNX_ttlAll i h)

theorem pass2_ttlAll {T : Nat} (pf : List (String × RawRecord × Bool)) (st : Store)
    (rep : Report) (h : TtlAll T st) : TtlAll T ((pass2 (some T) pf st rep).1) :=
  pass2_pres (some T) (fun _ i r ts _ h' => commitRecord_ttlAll i r ts h') pf st rep h

theorem indexChunks_ttlAll {T : Nat} (chunkSize : Nat) :
    ∀ (fuel : Nat) (items : List Entry) (st : Store) (rep : Report), TtlAll T st →
      TtlAll T ((indexChunks (some T) chunkSize fuel items (st, rep)).1) := by
  intro fuel
  induction fuel with
  | zero => intro items st rep h; simpa [indexChunks] using h
  | succ n ih =>
    intro items st rep h
    cases items with
    | nil => simpa [indexChunks] using h
    | cons x xs =>
      by_cases hc : chunkSize = 0
      · simpa [indexChunks, hc] using h
      · simp only [indexChunks, if_neg hc]
        have hstep : TtlAll T ((chunkStep (some T) ((x :: xs).take chunkSize) (st, rep)).1) := by
          simp only [chunkStep]
          exact pass2_ttlAll _ _ _ (pass1_ttlAll _ _ h)
        rcases hsr : chunkStep (some T) ((x :: xs).take chunkSize) (st, rep) with ⟨st', rep'⟩
        rw [hsr] at hstep
        exact ih _ st' rep' hstep

theorem runIndexer_ttlAll {T : Nat} (st : Store) (p : RunParams)
    (hT : ttlOf p.ttl_days = some T) (h : TtlAll T st) : TtlAll T ((runIndexer st p).1) := by
  unfold runIndexer
  rw [hT]
  exact indexChunks_ttlAll p.chunk p.source.length p.source st {} h

theorem ttlAll_empty (T : Nat) : TtlAll T Store.empty := by
  refine ⟨?_, ?_, ?_, rfl⟩ <;> intro p hp <;> simp [Store.empty] at hp

/-! ## Preservation of the search invariant -/

theorem pairwise_zinsert (m : String) (sc : ℚ) :
    ∀ {l : List (String × ℚ)}, l.Pairwise (fun a b => a.2 ≤ b.2) →
      (zinsert m sc l).Pairwise (fun a b => a.2 ≤ b.2) := by
  intro l
  induction l with
  | nil => intro _; simp [zinsert]
  | cons p l ih =>
    intro h
    rcases List.pairwise_cons.1 h with ⟨hp, hl⟩
    by_cases hlt : sc < p.2
    · simp only [zinsert, if_pos hlt]
      refine List.pairwise_cons.2 ⟨?_, h⟩
      intro q hq
      rcases List.mem_cons.1 hq with hq | hq
      · rw [hq]; exact le_of_lt hlt
      · exact (le_of_lt hlt).trans (hp q hq)
    · simp only [zinsert, if_neg hlt]
      refine List.pairwise_cons.2 ⟨?_, ih hl⟩
      intro q hq
      rcases mem_zinsert hq with hq | hq
      · rw [hq]; exact le_of_not_lt hlt
      · exact hp q hq

theorem commitRecord_inv (ttl : Option Nat) (st : Store) (i : String) (r : RawRecord)
    (ts : ℚ) (hd : r.date = some ts) (h : StoreInv st) :
    StoreInv (commitRecord ttl st i r ts) := by
  rcases h with ⟨hord, hlink⟩
  constructor
  · rw [commitRecord_zset]
    exact pairwise_zinsert i ts (hord.filter _)
  · intro p hp
    rw [commitRecord_zset] at hp
    rcases mem_zinsert hp with hp | hp
    · rw [hp]
      rw [commitRecord_reqs]
      cases ttl with
      | none => simp [setReq, alookup_aset_self, hd]
      | some t =>
        rw [expireReq_lookup, if_pos rfl]
        simp [setReq, alookup_aset_self, hd]
    · have hpn := (List.mem_filter.1 hp).2
      have hpne : p.1 ≠ i := by simpa using hpn
      have hpz : p ∈ st.zset := (List.mem_filter.1 hp).1
      rw [commitRecord_reqs]
      cases ttl with
      | none =>
        rw [show alookup p.1 (setReq st i r).reqs = alookup p.1 st.reqs from
          alookup_aset_ne _ _ hpne]
        exact hlink p hpz
      | some t =>
        rw [expireReq_lookup, if_neg hpne]
        rw [show alookup p.1 (setReq st i r).reqs = alookup p.1 st.reqs from
          alookup_aset_ne _ _ hpne]
        exact hlink p hpz

theorem storeInv_congr {st st' : Store} (h1 : st'.reqs = st.reqs) (h2 : st'.zset = st.zset)
    (h : StoreInv st) : StoreInv st' := by
  rcases h with ⟨hord, hlink⟩
  constructor
  · rw [h2]; exact hord
  · intro p hp
    rw [h2] at hp
    rw [h1]
    exact hlink p hp

theorem pass1_inv (ttl : Option Nat) (items : List Entry) (st : Store) (rep : Report)
    (h : StoreInv st) : StoreInv ((pass1 ttl items st rep).1) := by
  have hp := pass1_proj ttl items st rep
  exact storeInv_congr hp.1 hp.2.1 h

theorem pass2_inv (ttl : Option Nat) (pf : List (String × RawRecord × Bool)) (st : Store)
    (rep : Report) (h : StoreInv st) : StoreInv ((pass2 ttl pf st rep).1) :=
  pass2_pres ttl (fun st' i r ts hd h' => commitRecord_inv ttl st' i r ts hd h') pf st rep h

theorem indexChunks_inv (ttl : Option Nat) (chunkSize : Nat) :
    ∀ (fuel : Nat) (items : List Entry) (st : Store) (rep : Report), StoreInv st →
      StoreInv ((indexChunks ttl chunkSize fuel items (st, rep)).1) := by
  intro fuel
  induction fuel with
  | zero => intro items st rep h; simpa [indexChunks] using h
  | succ n ih =>
    intro items st rep h
    cases items with
    | nil => simpa [indexChunks] using h
    | cons x xs =>
      by_cases hc : chunkSize = 0
      · simpa [indexChunks, hc] using h
      · simp only [indexChunks, if_neg hc]
        have hstep : StoreInv ((chunkStep ttl ((x :: xs).take chunkSize) (st, rep)).1) := by
          simp only [chunkStep]
          exact pass2_inv ttl _ _ _ (pass1_inv ttl _ st rep h)
        rcases hsr : chunkStep ttl ((x :: xs).take chunkSize) (st, rep) with ⟨st', rep'⟩
        rw [hsr] at hstep
        exact ih _ st' rep' hstep

theorem runIndexer_inv (st : Store) (p : RunParams) (h : StoreInv st) :
    StoreInv ((runIndexer st p).1) :=
  indexChunks_inv (ttlOf p.ttl_days) p.chunk p.source.length p.source st {} h

theorem storeInv_empty : StoreInv Store.empty := by
  constructor
  · simp [Store.empty]
  · intro p hp
    simp [Store.empty] at hp

theorem built_inv {st : Store} (h : Built st) : StoreInv st := by
  rcases h with ⟨runs, hr⟩
  subst hr
  unfold buildStore
  refine foldl_pres (P := StoreInv) ?_ runs Store.empty storeInv_empty
  intro s p hs
  exact runIndexer_inv s p hs

/-! ## Search pipeline lemmas -/

theorem pairwise_filterMap_mem {α β : Type} {R : α → α → Prop} {S : β → β → Prop}
    (g : α → Option β) :
    ∀ {l : List α},
      (∀ a b x y, a ∈ l → b ∈ l → R a b → g a = some x → g b = some y → S x y) →
      l.Pairwise R → (l.filterMap g).Pairwise S := by
  intro l
  induction l with
  | nil => intro _ _; simp
  | cons a l ih =>
    intro hmem h
    rcases List.pairwise_cons.1 h with ⟨ha, hl⟩
    have hmem' : ∀ a' b x y, a' ∈ l → b ∈ l → R a' b → g a' = some x → g b = some y → S x y :=
      fun a' b x y ha' hb => hmem a' b x y (List.mem_cons_of_mem _ ha') (List.mem_cons_of_mem _ hb)
    cases hg : g a with
    | none => simpa [List.filterMap_cons, hg] using ih hmem' hl
    | some x =>
      rw [List.filterMap_cons, hg]
      refine List.pairwise_cons.2 ⟨?_, ih hmem' hl⟩
      intro y hy
      rcases List.mem_filterMap.1 hy with ⟨b, hb, hgb⟩
      exact hmem a b x y (List.mem_cons_self _ _) (List.mem_cons_of_mem _ hb) (ha b hb) hg hgb

theorem all_perm {α : Type} {f : α → Bool} {l1 l2 : List α} (h : l1.Perm l2) :
    l1.all f = l2.all f := by
  cases h1 : l1.all f with
  | true =>
    have := List.all_eq_true.1 h1
    exact (List.all_eq_true.2 (fun x hx => this x (h.mem_iff.2 hx))).symm
  | false =>
    cases h2 : l2.all f with
    | false => rfl
    | true =>
      have := List.all_eq_true.1 h2
      rw [List.all_eq_true.2 (fun x hx => this x (h.mem_iff.1 hx))] at h1
      exact h1.symm

theorem mem_zrangebyscore {st : Store} {s e : ℚ} {p : String × ℚ}
    (h : p ∈ zrangebyscore st s e) : p ∈ st.zset ∧ s ≤ p.2 ∧ p.2 ≤ e := by
  unfold zrangebyscore at h
  have hm := List.mem_filter.1 h
  refine ⟨hm.1, ?_, ?_⟩
  · have := hm.2
    simp only [Bool.and_eq_true, decide_eq_true_eq] at this
    exact this.1
  · have := hm.2
    simp only [Bool.and_eq_true, decide_eq_true_eq] at this
    exact this.2

theorem zrange_pairwise {st : Store} (hinv : StoreInv st) (s e : ℚ) :
    (zrangebyscore st s e).Pairwise (fun a b => a.2 ≤ b.2) :=
  hinv.1.filter _

theorem fetchRec_spec {st : Store} {uc ac : Option String} {rid : String} {r : RawRecord}
    (h : fetchRec st uc ac rid = some r) :
    (∃ t, alookup rid st.reqs = some (r, t)) ∧ urlOk uc r = true ∧ uaOk ac r = true := by
  unfold fetchRec at h
  cases halo : alookup rid st.reqs with
  | none => rw [halo] at h; exact absurd h (by simp)
  | some rt =>
    rw [halo] at h
    cases hok : (urlOk uc rt.1 && uaOk ac rt.1) with
    | false => simp [hok] at h
    | true =>
      simp [hok] at h
      subst h
      simp only [Bool.and_eq_true] at hok
      exact ⟨⟨rt.2, rfl⟩, hok.1, hok.2⟩

theorem fetchRec_date {st : Store} (hinv : StoreInv st) {uc ac : Option String}
    {p : String × ℚ} (hp : p ∈ st.zset) {r : RawRecord}
    (h : fetchRec st uc ac p.1 = some r) : r.date = some p.2 := by
  have hl := hinv.2 p hp
  rcases (fetchRec_spec h).1 with ⟨t, halo⟩
  rw [halo] at hl
  simpa using hl

theorem resultsOf_eq_entries (st : Store) (s e : ℚ) (fl : Filters) (uc ac : Option String)
    (order : String) (limit : Nat) :
    resultsOf st s e fl uc ac order limit =
      (((if order = "newest" then (zrangebyscore st s e).reverse else zrangebyscore st s e).filter
        (fun p => decide (p.1 ∈ candidatesOf st s e order fl))).take limit).filterMap
        (fun p => fetchRec st uc ac p.1) := by
  unfold resultsOf orderedOf
  have hids : timeIdsOf st s e order =
      (if order = "newest" then (zrangebyscore st s e).reverse else zrangebyscore st s e).map
        (fun p => p.1) := by
    unfold timeIdsOf
    by_cases h : order = "newest"
    · rw [if_pos h, if_pos h, List.map_reverse]
    · rw [if_neg h, if_neg h]
  rw [hids, List.filter_map, ← List.map_take, List.filterMap_map]
  rfl

theorem search_results_def (st : Store) (s e : ℚ) (fl : Filters) (uc ac : Option String)
    (order : String) (limit : Nat) :
    (search_reports st s e fl uc ac order limit).results =
      resultsOf st s e fl uc ac order limit := rfl

theorem search_count_def (st : Store) (s e : ℚ) (fl : Filters) (uc ac : Option String)
    (order : String) (limit : Nat) :
    (search_reports st s e fl uc ac order limit).count =
      (resultsOf st s e fl uc ac order limit).length := rfl

theorem mem_entriesTrunc {st : Store} {s e : ℚ} {fl : Filters} {order : String}
    {limit : Nat} {p : String × ℚ}
    (hp : p ∈ (((if order = "newest" then (zrangebyscore st s e).reverse
        else zrangebyscore st s e).filter
        (fun q => decide (q.1 ∈ candidatesOf st s e order fl))).take limit)) :
    p ∈ st.zset ∧ s ≤ p.2 ∧ p.2 ≤ e := by
  have hp1 := (List.take_sublist _ _).subset hp
  have hp2 := (List.mem_filter.1 hp1).1
  by_cases h : order = "newest"
  · rw [if_pos h] at hp2
    exact mem_zrangebyscore (List.mem_reverse.1 hp2)
  · rw [if_neg h] at hp2
    exact mem_zrangebyscore hp2

theorem resultsOf_date_range {st : Store} (hinv : StoreInv st) {s e : ℚ} {fl : Filters}
    {uc ac : Option String} {order : String} {limit : Nat} {r : RawRecord}
    (hr : r ∈ resultsOf st s e fl uc ac order limit) :
    ∃ d, r.date = some d ∧ s ≤ d ∧ d ≤ e := by
  rw [resultsOf_eq_entries] at hr
  rcases List.mem_filterMap.1 hr with ⟨p, hp, hfetch⟩
  have hz := mem_entriesTrunc hp
  exact ⟨p.2, fetchRec_date hinv hz.1 hfetch, hz.2.1, hz.2.2⟩

theorem resultsOf_sorted_asc {st : Store} (hinv : StoreInv st) (s e : ℚ) (fl : Filters)
    (uc ac : Option String) {order : String} (limit : Nat) (horder : order ≠ "newest") :
    (resultsOf st s e fl uc ac order limit).Pairwise
      (fun r1 r2 => ∃ d1 d2, r1.date = some d1 ∧ r2.date = some d2 ∧ d1 ≤ d2) := by
  rw [resultsOf_eq_entries]
  refine pairwise_filterMap_mem (R := fun a b => a.2 ≤ b.2) _ ?_ ?_
  · intro a b x y ha hb hab hga hgb
    exact ⟨a.2, b.2, fetchRec_date hinv (mem_entriesTrunc ha).1 hga,
      fetchRec_date hinv (mem_entriesTrunc hb).1 hgb, hab⟩
  · refine List.Pairwise.sublist (List.take_sublist _ _) ?_
    refine List.Pairwise.filter _ ?_
    rw [if_neg horder]
    exact zrange_pairwise hinv s e

theorem resultsOf_sorted_desc {st : Store} (hinv : StoreInv st) (s e : ℚ) (fl : Filters)
    (uc ac : Option String) (limit : Nat) :
    (resultsOf st s e fl uc ac "newest" limit).Pairwise
      (fun r1 r2 => ∃ d1 d2, r1.date = some d1 ∧ r2.date = some d2 ∧ d2 ≤ d1) := by
  rw [resultsOf_eq_entries]
  refine pairwise_filterMap_mem (R := fun a b => b.2 ≤ a.2) _ ?_ ?_
  · intro a b x y ha hb hab hga hgb
    exact ⟨a.2, b.2, fetchRec_date hinv (mem_entriesTrunc ha).1 hga,
      fetchRec_date hinv (mem_entriesTrunc hb).1 hgb, hab⟩
  · refine List.Pairwise.sublist (List.take_sublist _ _) ?_
    refine List.Pairwise.filter _ ?_
    rw [if_pos rfl]
    exact List.pairwise_reverse.2 (zrange_pairwise hinv s e)

/-! ## Filter intersection lemmas -/

theorem applyFilters_eq (st : Store) :
    ∀ (pairs : List (String × String)) (cands : List String),
      applyFilters st pairs cands =
        cands.filter (fun i => pairs.all (fun kv => decide (i ∈ smembersL st kv))) := by
  intro pairs
  induction pairs with
  | nil => intro cands; simp [applyFilters]
  | cons kv pairs ih =>
    intro cands
    rw [show applyFilters st (kv :: pairs) cands = applyFilters st pairs
      (cands.filter (fun i => decide (i ∈ smembersL st kv))) from rfl]
    rw [ih, List.filter_filter]
    refine List.filter_congr ?_
    intro a _
    simp [List.all_cons, Bool.and_comm]

theorem mem_applyFilters {st : Store} {pairs : List (String × String)} {cands : List String}
    {i : String} :
    i ∈ applyFilters st pairs cands ↔
      i ∈ cands ∧ ∀ kv ∈ pairs, i ∈ smembersL st kv := by
  rw [applyFilters_eq, List.mem_filter]
  simp [List.all_eq_true]

theorem applyFilters_perm (st : Store) (cands : List String)
    {pairs1 pairs2 : List (String × String)} (h : pairs1.Perm pairs2) :
    applyFilters st pairs1 cands = applyFilters st pairs2 cands := by
  rw [applyFilters_eq, applyFilters_eq]
  refine List.filter_congr ?_
  intro a _
  exact all_perm h

/-! ## Limit and substring lemmas -/

theorem resultsOf_length_le (st : Store) (s e : ℚ) (fl : Filters) (uc ac : Option String)
    (order : String) (limit : Nat) :
    (resultsOf st s e fl uc ac order limit).length ≤ limit := by
  unfold resultsOf
  refine le_trans (List.length_filterMap_le _ _) ?_
  unfold orderedOf
  exact List.length_take_le _ _

theorem resultsOf_from_ordered {st : Store} {s e : ℚ} {fl : Filters} {uc ac : Option String}
    {order : String} {limit : Nat} {r : RawRecord}
    (hr : r ∈ resultsOf st s e fl uc ac order limit) :
    ∃ rid ∈ orderedOf st s e order fl limit, fetchRec st uc ac rid = some r := by
  unfold resultsOf at hr
  exact List.mem_filterMap.1 hr

theorem resultsOf_substring_pass {st : Store} {s e : ℚ} {fl : Filters}
    {uc ac : Option String} {order : String} {limit : Nat} {r : RawRecord}
    (hr : r ∈ resultsOf st s e fl uc ac order limit) :
    urlOk uc r = true ∧ uaOk ac r = true := by
  rcases resultsOf_from_ordered hr with ⟨rid, _, hfetch⟩
  exact (fetchRec_spec hfetch).2

theorem search_reports_order_congr (st : Store) (s e : ℚ) (fl : Filters)
    (uc ac : Option String) (limit : Nat) {order : String} (h : order ≠ "newest") :
    search_reports st s e fl uc ac order limit =
      search_reports st s e fl uc ac "oldest" limit := by
  have ht : timeIdsOf st s e order = timeIdsOf st s e "oldest" := by
    unfold timeIdsOf
    rw [if_neg h, if_neg (by decide : ¬ ("oldest" = "newest"))]
  unfold search_reports resultsOf orderedOf candidatesOf
  rw [ht]

/-! ## Claim theorems -/

/-- C8: when resolving a start or end parameter, a numeric input value n
resolves to n / 1000 exactly when n is strictly greater than 10^10 and to n
otherwise; the boundary value 10^10 itself is taken as seconds; and a
numeric input always resolves on this path, before any date-string
parsing. -/
theorem to_epoch_threshold :
    (∀ n : ℚ, to_epoch (TimeVal.num n) =
      Except.ok (if 10000000000 < n then n / 1000 else n)) ∧
      to_epoch (TimeVal.num 10000000000) = Except.ok 10000000000 := by
  constructor
  · intro n; rfl
  · simp [to_epoch]

/-- C5 counterexample: a search request whose start value is an unparseable
date string does not fail with a client error; the ParserError escapes the
handler and the caller sees a server error (HTTP 500). -/
theorem search_unparseable_time_counterexample :
    reports_search Store.empty (some (TimeVal.dateStr none)) (some (TimeVal.num 0))
        {} none none "newest" 50 =
      Except.error (ApiError.serverError "ParserError") ∧
    ¬ ∃ m, reports_search Store.empty (some (TimeVal.dateStr none)) (some (TimeVal.num 0))
        {} none none "newest" 50 = Except.error (ApiError.clientError m) := by
  constructor
  · rfl
  · intro hm
    rcases hm with ⟨m, hm⟩
    rw [show reports_search Store.empty (some (TimeVal.dateStr none)) (some (TimeVal.num 0))
        {} none none "newest" 50 = Except.error (ApiError.serverError "ParserError") from rfl]
      at hm
    exact ApiError.noConfusion (Except.error.inj hm)

/-- C5 amended: a search request whose start or end value cannot be parsed
as a time fails — it is not silently defaulted — but the failure surfaces as
an unhandled-exception server error (HTTP 500), not as a client error: this
holds both when the start value is unparseable and when the start value
parses but the end value is unparseable; only a missing start or end
parameter is rejected as a client error (HTTP 422) by the framework before
the handler runs. -/
theorem search_unparseable_time_amended (st : Store) (sv evv : TimeVal) (fl : Filters)
    (uc ac : Option String) (order : String) (limit : Nat) (m : String) :
    (to_epoch sv = Except.error m →
      reports_search st (some sv) (some evv) fl uc ac order limit =
        Except.error (ApiError.serverError m)) ∧
      (∀ q, to_epoch sv = Except.ok q → to_epoch evv = Except.error m →
        reports_search st (some sv) (some evv) fl uc ac order limit =
          Except.error (ApiError.serverError m)) ∧
      reports_search st none (some evv) fl uc ac order limit =
        Except.error (ApiError.clientError "field required: start") ∧
      reports_search st (some sv) none fl uc ac order limit =
        Except.error (ApiError.clientError "field required: end") := by
  refine ⟨?_, ?_, rfl, rfl⟩
  · intro hm
    simp only [reports_search]
    rw [hm]
  · intro q hq hm
    simp only [reports_search]
    rw [hq, hm]

/-- Witness for C5 amended: a concrete unparseable start value beside a
parseable end value, and a concrete parseable start value beside an
unparseable end value. -/
theorem search_unparseable_time_amended_witness :
    to_epoch (TimeVal.dateStr none) = Except.error "ParserError" ∧
      to_epoch (TimeVal.num 7) = Except.ok 7 ∧
      reports_search Store.empty (some (TimeVal.dateStr none)) (some (TimeVal.num 7))
          {} none none "newest" 50 =
        Except.error (ApiError.serverError "ParserError") ∧
      reports_search Store.empty (some (TimeVal.num 7)) (some (TimeVal.dateStr none))
          {} none none "newest" 50 =
        Except.error (ApiError.serverError "ParserError") :=
  ⟨rfl, by norm_num [to_epoch],
    (search_unparseable_time_amended Store.empty (TimeVal.dateStr none) (TimeVal.num 7)
      {} none none "newest" 50 "ParserError").1 rfl,
    (search_unparseable_time_amended Store.empty (TimeVal.num 7) (TimeVal.dateStr none)
      {} none none "newest" 50 "ParserError").2.1 7 (by norm_num [to_epoch]) rfl⟩

/-- C2: running the indexer a second time over an unchanged source leaves
every index structure (record store, time index, attribute sets, dedupe
markers — the whole database state) identical and reports new_count = 0. -/
theorem indexer_idempotent (st0 : Store) (p : RunParams) :
    (runIndexer ((runIndexer st0 p).1) p).1 = (runIndexer st0 p).1 ∧
      (runIndexer ((runIndexer st0 p).1) p).2.new_count = 0 :=
  runIndexer_idem st0 p

/-- C10: any order value other than the exact string newest — oldest or any
unrecognized string — produces exactly the response of order oldest (the
parameter is never validated and never causes an error), and on a store
built by the indexer the result list is ascending in the date field. -/
theorem search_order_fallback (st : Store) (s e : ℚ) (fl : Filters) (uc ac : Option String)
    (limit : Nat) (order : String) (ho : order ≠ "newest") (hb : Built st) :
    search_reports st s e fl uc ac order limit =
        search_reports st s e fl uc ac "oldest" limit ∧
      (search_reports st s e fl uc ac order limit).results.Pairwise
        (fun r1 r2 => ∃ d1 d2, r1.date = some d1 ∧ r2.date = some d2 ∧ d1 ≤ d2) := by
  refine ⟨search_reports_order_congr st s e fl uc ac limit ho, ?_⟩
  rw [search_results_def]
  exact resultsOf_sorted_asc (built_inv hb) s e fl uc ac limit ho

/-- Witness for C10 at a concrete unrecognized order string and a concrete
store built by one indexer run. -/
theorem search_order_fallback_witness :
    ("chronological" ≠ "newest") ∧ Built stABC ∧
      (search_reports stABC 0 9999 {} none none "chronological" 50 =
          search_reports stABC 0 9999 {} none none "oldest" 50 ∧
        (search_reports stABC 0 9999 {} none none "chronological" 50).results.Pairwise
          (fun r1 r2 => ∃ d1 d2, r1.date = some d1 ∧ r2.date = some d2 ∧ d1 ≤ d2)) :=
  ⟨by decide, ⟨[runABC], rfl⟩,
    search_order_fallback stABC 0 9999 {} none none 50 "chronological" (by decide)
      ⟨[runABC], rfl⟩⟩

/-- C3: on any store built by the indexer, every record returned by a search
over the window s..e carries a date inside the inclusive window — so no
record with a date outside the window is ever returned. -/
theorem search_range_correct (st : Store) (hb : Built st) (s e : ℚ) (fl : Filters)
    (uc ac : Option String) (order : String) (limit : Nat) :
    ∀ r ∈ (search_reports st s e fl uc ac order limit).results,
      ∃ d, r.date = some d ∧ s ≤ d ∧ d ≤ e := by
  intro r hr
  rw [search_results_def] at hr
  exact resultsOf_date_range (built_inv hb) hr

/-- Witness for C3 at a concrete built store and window. -/
theorem search_range_correct_witness :
    Built stABC ∧
      ∀ r ∈ (search_reports stABC 500 1500 {} none none "newest" 50).results,
        ∃ d, r.date = some d ∧ 500 ≤ d ∧ d ≤ 1500 :=
  ⟨⟨[runABC], rfl⟩,
    search_range_correct stABC ⟨[runABC], rfl⟩ 500 1500 {} none none "newest" 50⟩

/-- C9: on any store built by the indexer, the result list of a search with
order newest is non-increasing in the date field, and with order oldest it
is non-decreasing. -/
theorem search_order_monotone (st : Store) (hb : Built st) (s e : ℚ) (fl : Filters)
    (uc ac : Option String) (limit : Nat) :
    (search_reports st s e fl uc ac "newest" limit).results.Pairwise
        (fun r1 r2 => ∃ d1 d2, r1.date = some d1 ∧ r2.date = some d2 ∧ d2 ≤ d1) ∧
      (search_reports st s e fl uc ac "oldest" limit).results.Pairwise
        (fun r1 r2 => ∃ d1 d2, r1.date = some d1 ∧ r2.date = some d2 ∧ d1 ≤ d2) := by
  constructor
  · rw [search_results_def]
    exact resultsOf_sorted_desc (built_inv hb) s e fl uc ac limit
  · rw [search_results_def]
    exact resultsOf_sorted_asc (built_inv hb) s e fl uc ac limit (by decide)

/-- Witness for C9 at a concrete built store holding three records. -/
theorem search_order_monotone_witness :
    Built stABC ∧
      ((search_reports stABC 0 9999 {} none none "newest" 50).results.Pairwise
          (fun r1 r2 => ∃ d1 d2, r1.date = some d1 ∧ r2.date = some d2 ∧ d2 ≤ d1) ∧
        (search_reports stABC 0 9999 {} none none "oldest" 50).results.Pairwise
          (fun r1 r2 => ∃ d1 d2, r1.date = some d1 ∧ r2.date = some d2 ∧ d1 ≤ d2)) :=
  ⟨⟨[runABC], rfl⟩, search_order_monotone stABC ⟨[runABC], rfl⟩ 0 9999 {} none none 50⟩

/-- C4: the candidate id set of a search is exactly the ids of the time
window that belong to the attribute SET of every supplied exact filter
(logical AND via set intersection, status compared through its string form,
absent filters imposing no constraint), and applying the same filter pairs
in any other order produces the identical candidate set. -/
theorem search_filter_intersection (st : Store) (s e : ℚ) (order : String) (fl : Filters)
    (pairs2 : List (String × String)) (hperm : pairs2.Perm fl.toPairs) :
    (∀ i, i ∈ candidatesOf st s e order fl ↔
        i ∈ timeIdsOf st s e order ∧ ∀ kv ∈ fl.toPairs, i ∈ smembersL st kv) ∧
      applyFilters st pairs2 (timeIdsOf st s e order) = candidatesOf st s e order fl := by
  constructor
  · intro i
    unfold candidatesOf
    exact mem_applyFilters
  · unfold candidatesOf
    exact applyFilters_perm st _ hperm

/-- Witness for C4 at a concrete store, with the ip and mode filters
supplied in both orders. -/
theorem search_filter_intersection_witness :
    ([("mode", "block"), ("ip", "1.2.3.4")].Perm
        (Filters.toPairs { ip := some "1.2.3.4", security_mode := some "block" })) ∧
      (∀ i, i ∈ candidatesOf stABC 0 9999 "oldest"
          { ip := some "1.2.3.4", security_mode := some "block" } ↔
        i ∈ timeIdsOf stABC 0 9999 "oldest" ∧
          ∀ kv ∈ Filters.toPairs { ip := some "1.2.3.4", security_mode := some "block" },
            i ∈ smembersL stABC kv) ∧
      applyFilters stABC [("mode", "block"), ("ip", "1.2.3.4")]
          (timeIdsOf stABC 0 9999 "oldest") =
        candidatesOf stABC 0 9999 "oldest"
          { ip := some "1.2.3.4", security_mode := some "block" } :=
  ⟨by decide,
    search_filter_intersection stABC 0 9999 "oldest"
      { ip := some "1.2.3.4", security_mode := some "block" }
      [("mode", "block"), ("ip", "1.2.3.4")] (by decide)⟩

/-- C7: the substring filters url_contains and ua_contains are applied only
to the at-most-limit records fetched after the time/set-filtered ordered id
list is truncated: every search returns at most limit records, each
returned record passes both substring guards and is fetched from an id of
the truncated list; consequently, at a concrete store holding three records
that pass the set filters, a search with limit 2 and url_contains admin
returns count 0 even though a record matching every filter exists past the
cutoff (the same search with limit 3 returns it). -/
theorem search_substring_after_limit :
    (∀ (st : Store) (s e : ℚ) (fl : Filters) (uc ac : Option String) (order : String)
        (limit : Nat),
      (search_reports st s e fl uc ac order limit).results.length ≤ limit ∧
        ∀ r ∈ (search_reports st s e fl uc ac order limit).results,
          urlOk uc r = true ∧ uaOk ac r = true ∧
            ∃ rid ∈ orderedOf st s e order fl limit, fetchRec st uc ac rid = some r) ∧
      (search_reports stABC 0 9999 {} (some "admin") none "oldest" 2).count = 0 ∧
      (search_reports stABC 0 9999 {} (some "admin") none "oldest" 3).count = 1 := by
  refine ⟨?_, by decide, by decide⟩
  intro st s e fl uc ac order limit
  constructor
  · rw [search_results_def]
    exact resultsOf_length_le st s e fl uc ac order limit
  · intro r hr
    rw [search_results_def] at hr
    rcases resultsOf_from_ordered hr with ⟨rid, hrid, hfetch⟩
    have hpass := (fetchRec_spec hfetch).2
    exact ⟨hpass.1, hpass.2, rid, hrid, hfetch⟩

/-- Witness for C7: the universal part applied at the concrete store. -/
theorem search_substring_after_limit_witness :
    (search_reports stABC 0 9999 {} (some "admin") none "oldest" 2).results.length ≤ 2 ∧
      ∀ r ∈ (search_reports stABC 0 9999 {} (some "admin") none "oldest" 2).results,
        urlOk (some "admin") r = true ∧ uaOk none r = true ∧
          ∃ rid ∈ orderedOf stABC 0 9999 "oldest" {} 2,
            fetchRec stABC (some "admin") none rid = some r :=
  search_substring_after_limit.1 stABC 0 9999 {} (some "admin") none "oldest" 2

/-- C1 counterexample: at a concrete store built with retention enabled
(ttl_days = 60), the forward entry of record a carries the horizon
5184000 s while the time-index ZSET key carries no expiration at all, so
the index footprints of the record do not all share one horizon. -/
theorem retention_zset_no_ttl : ¬ FootprintsShareHorizon stABC "a" := by
  intro h
  have ha : (alookup "a" stABC.reqs).map (fun rt => rt.2) = some (some 5184000) := by decide
  have hz := (h (some 5184000) ha).2.2
  have hn : stABC.zttl = none := by decide
  rw [hn] at hz
  exact Option.noConfusion hz

/-- C1 amended: with retention enabled (ttl_days > 0, giving the horizon
T = ttl_days * 86400 seconds), an indexer run over a database whose keys
already carry horizon T leaves every dedupe marker, every forward record
entry and every attribute-index SET key carrying that same horizon T, while
the time-index ZSET key still carries no expiration at all (the code never
expires it); the record store entry, attribute memberships and dedupe
marker therefore share one horizon, but the time-index entry does not. -/
theorem retention_horizons (st : Store) (p : RunParams) (T : Nat)
    (hT : ttlOf p.ttl_days = some T) (h : TtlAll T st) :
    (∀ q ∈ ((runIndexer st p).1).seen, q.2 = some T) ∧
      (∀ q ∈ ((runIndexer st p).1).reqs, q.2.2 = some T) ∧
      (∀ q ∈ ((runIndexer st p).1).sets, q.2.2 = some T) ∧
      ((runIndexer st p).1).zttl = none :=
  runIndexer_ttlAll st p hT h

/-- Witness for C1 amended: one run with 60-day retention over the empty
database. -/
theorem retention_horizons_witness :
    ttlOf (60 : Int) = some 5184000 ∧ TtlAll 5184000 Store.empty ∧
      ((∀ q ∈ ((runIndexer Store.empty runABC).1).seen, q.2 = some 5184000) ∧
        (∀ q ∈ ((runIndexer Store.empty runABC).1).reqs, q.2.2 = some 5184000) ∧
        (∀ q ∈ ((runIndexer Store.empty runABC).1).sets, q.2.2 = some 5184000) ∧
        ((runIndexer Store.empty runABC).1).zttl = none) :=
  ⟨by decide, ttlAll_empty 5184000,
    retention_horizons Store.empty runABC 5184000 (by decide) (ttlAll_empty 5184000)⟩

/-- C6: a record of the source whose id is fresh and truthy but whose every
occurrence lacks a usable date is counted in missingDateCount, is committed
to no index structure (no forward entry, no time-index membership, no
attribute-SET membership), keeps its dedupe marker set, and a re-run of the
indexer over the same source leaves the database unchanged, so the record
is never indexed later. -/
theorem indexer_poison_skip (p : RunParams) (i : String) (hi : i ≠ "")
    (hchunk : 1 ≤ p.chunk) (hpois : PoisonOnly p.source i)
    (hmem : ∃ r, Entry.record r ∈ p.source ∧ r.id = some i) :
    1 ≤ (runIndexer Store.empty p).2.no_date ∧
      (alookup i ((runIndexer Store.empty p).1).seen).isSome ∧
      NotIndexed ((runIndexer Store.empty p).1) i ∧
      (runIndexer ((runIndexer Store.empty p).1) p).1 = (runIndexer Store.empty p).1 := by
  have hadm : i ∈ admissibleIds p.source := by
    rcases hmem with ⟨r, hr, hid⟩
    exact List.mem_filterMap.2 ⟨Entry.record r, hr, by simp [entryId, hid, hi]⟩
  have hempty_seen : alookup i Store.empty.seen = none := rfl
  have hempty_ni : NotIndexed Store.empty i := by
    refine ⟨rfl, ?_, ?_⟩
    · intro hz
      simp [zmem, Store.empty] at hz
    · intro kv hz
      simp [smembersL, Store.empty, alookup] at hz
  refine ⟨?_, ?_, ?_, (runIndexer_idem Store.empty p).1⟩
  · have := indexChunks_no_date_bump (ttlOf p.ttl_days) p.chunk hchunk p.source.length
      p.source Store.empty {} (Nat.le_refl _) hadm hempty_seen hpois
    exact this
  · exact indexChunks_marks (ttlOf p.ttl_days) p.chunk hchunk p.source.length p.source
      Store.empty {} (Nat.le_refl _) (Or.inr hadm)
  · exact indexChunks_notIndexed (ttlOf p.ttl_days) p.chunk p.source.length p.source
      Store.empty {} hpois hempty_ni

/-- Witness for C6: a run over one dated record and one poison record. -/
theorem indexer_poison_skip_witness :
    ("p" ≠ "") ∧ 1 ≤ runAP.chunk ∧ PoisonOnly runAP.source "p" ∧
      (∃ r, Entry.record r ∈ runAP.source ∧ r.id = some "p") ∧
      (1 ≤ (runIndexer Store.empty runAP).2.no_date ∧
        (alookup "p" ((runIndexer Store.empty runAP).1).seen).isSome ∧
        NotIndexed ((runIndexer Store.empty runAP).1) "p" ∧
        (runIndexer ((runIndexer Store.empty runAP).1) runAP).1 =
          (runIndexer Store.empty runAP).1) := by
  have hpois : PoisonOnly runAP.source "p" := by
    intro r hr hid
    simp only [runAP, List.mem_cons, List.not_mem_nil, or_false] at hr
    rcases hr with hr | hr
    · rw [Entry.record.injEq] at hr
      rw [hr] at hid
      exact absurd hid (by decide)
    · rw [Entry.record.injEq] at hr
      rw [hr]
      rfl
  have hmem : ∃ r, Entry.record r ∈ runAP.source ∧ r.id = some "p" :=
    ⟨recP, by simp [runAP], rfl⟩
  exact ⟨by decide, by decide, hpois, hmem,
    indexer_poison_skip runAP "p" (by decide) (by decide) hpois hmem⟩
